import Mathlib

/-! Environment substitution and parameter lookup of the import-export CLI.

A shallow embedding of

* `import-export-cli/utils/envSubstituteUtils.go`
  (`recb`, `ErrRequiredEnvKeyMissing`, `EnvSubstituteForCurlyBraces`,
  `EnvSubstituteInFile`, `EnvSubstituteInFolder`),
* `import-export-cli/specs/params/params.go`
  (`ApiParams`, `GetEnv`, `LoadApiParams`, `ExtractAPIEndpointConfig`), and
* `import-export-cli/impl/common.go` (`GetFileLocationFromPattern`),

followed by the properties proved about them.

Modelling conventions.

* A Go `string` is a `List Char` (`Str`).  The pattern `recb` and every token it
  matches are pure ASCII, so matching by characters and matching by bytes agree.
* The process environment is a finite map read through `os.Getenv`; it is an
  explicit argument `env : Env`, where `env k = none` means that `k` is unset.
* A Go `error` is an `Option`: `none` is the nil error.
* `regexp.FindAllStringSubmatch`, `strings.ReplaceAll` and `multierror.Append`
  are library functions; they are modelled after their documented behaviour.
* The calls of `Logln` only write to the log and are left out.
* A pointer into a slice is the index of the element it points to.
-/

namespace ApimTooling

/-! ## Strings and the environment -/

/-- A Go string. -/
abbrev Str := List Char

/-- The process environment: `none` for a variable that is not set. -/
abbrev Env := Str → Option Str

/-- Go `os.Getenv`: the value of the variable, the empty string when it is unset. -/
def Getenv (env : Env) (key : Str) : Str :=
  match env key with
  | some v => v
  | none => []

/-! ## The pattern `recb`, written in Go as a dollar, an opening brace, `(\w+)`, a closing brace -/

/-- The regular-expression class `\w` of Go (RE2): ASCII letters, digits and underscore. -/
def isWordChar (c : Char) : Bool := c.isAlphanum || c == '_'

/-- One element of the result of `FindAllStringSubmatch`: `whole` is `match[0]`, the
matched text, and `group` is `match[1]`, the text captured by `(\w+)`. -/
structure Submatch where
  whole : Str
  group : Str
deriving DecidableEq, Repr

/-- The text of the placeholder for the variable `name`: dollar, brace, `name`, brace. -/
def placeholder (name : Str) : Str := '$' :: '{' :: (name ++ ['}'])

/-- A match of `recb` anchored at the first character of `s`: a dollar, an opening brace,
the longest non-empty run of word characters (`\w+` is greedy, and a shorter run cannot be
followed by the closing brace), and a closing brace. -/
def recbMatchAt : Str → Option Submatch
  | c :: d :: t =>
    if c = '$' ∧ d = '{' ∧ t.takeWhile isWordChar ≠ [] ∧
        (t.dropWhile isWordChar).head? = some '}' then
      some ⟨placeholder (t.takeWhile isWordChar), t.takeWhile isWordChar⟩
    else none
  | _ => none

/-- The scan of `FindAllStringSubmatch`: leftmost matches, left to right, not overlapping.
The first argument is the number of characters still to be passed over because they belong
to the match just reported. -/
def findAllFrom : Nat → Str → List Submatch
  | _, [] => []
  | n + 1, _ :: t => findAllFrom n t
  | 0, c :: t =>
    match recbMatchAt (c :: t) with
    | some m => m :: findAllFrom (m.whole.length - 1) t
    | none => findAllFrom 0 t

/-- Go `recb.FindAllStringSubmatch(content, -1)`. -/
def FindAllStringSubmatch (content : Str) : List Submatch := findAllFrom 0 content

/-! ## `strings.ReplaceAll` -/

/-- The scan of `strings.ReplaceAll` for a non-empty `old`: occurrences are taken leftmost
first and do not overlap. The first numeric argument counts the characters of the occurrence
just replaced that are still to be passed over. -/
def replaceFrom (old new : Str) : Nat → Str → Str
  | _, [] => []
  | n + 1, _ :: t => replaceFrom old new n t
  | 0, c :: t =>
    if old.isPrefixOf (c :: t) then new ++ replaceFrom old new (old.length - 1) t
    else c :: replaceFrom old new 0 t

/-- Go `strings.ReplaceAll(s, old, new)`. For an empty `old` the replacement is inserted
before every character and at the end. -/
def ReplaceAll (s old new : Str) : Str :=
  if old = [] then new ++ s.flatMap (fun c => c :: new)
  else replaceFrom old new 0 s

/-! ## Errors -/

/-- ErrRequiredEnvKeyMissing represents error used for indicate environment key missing. -/
structure ErrRequiredEnvKeyMissing where
  /-- Key is the missing entity. -/
  Key : Str
deriving DecidableEq, Repr

/-- The aggregate `*multierror.Error`: the list of the errors appended so far. -/
structure MultiError where
  Errors : List ErrRequiredEnvKeyMissing
deriving DecidableEq, Repr

/-- Go `multierror.Append(err, e)`: a nil `err` starts a new aggregate, otherwise `e`
is added at the end of the aggregate. -/
def multierrorAppend (err : Option MultiError) (e : ErrRequiredEnvKeyMissing) : MultiError :=
  match err with
  | none => ⟨[e]⟩
  | some me => ⟨me.Errors ++ [e]⟩

/-! ## `EnvSubstituteForCurlyBraces` -/

/-- The variables of `EnvSubstituteForCurlyBraces` that the loop updates. -/
structure SubstState where
  content : Str
  errorResults : Option MultiError
  missingEnvKeys : Bool
deriving DecidableEq, Repr

/-- The body of the loop `for _, match := range matches`. -/
def substStep (env : Env) (st : SubstState) (m : Submatch) : SubstState :=
  if Getenv env m.group = [] then
    { st with
      missingEnvKeys := true
      errorResults := some (multierrorAppend st.errorResults ⟨m.whole⟩) }
  else
    { st with content := ReplaceAll st.content m.whole (Getenv env m.group) }

/-- Go `EnvSubstituteForCurlyBraces`: the returned string and the returned error. -/
def EnvSubstituteForCurlyBraces (env : Env) (content : Str) : Str × Option MultiError :=
  let st := (FindAllStringSubmatch content).foldl (substStep env) ⟨content, none, false⟩
  if st.missingEnvKeys then ([], st.errorResults) else (st.content, none)

/-! ## Auxiliary notions used in the statements -/

/-- The variable `key` is unset, or set to the empty string. -/
def unsetOrEmpty (env : Env) (key : Str) : Prop := env key = none ∨ env key = some []

instance (env : Env) (key : Str) : Decidable (unsetOrEmpty env key) := by
  unfold unsetOrEmpty; infer_instance

/-- The error values of an error result: none for the nil error. -/
def errorsOf : Option MultiError → List ErrRequiredEnvKeyMissing
  | none => []
  | some me => me.Errors

/-- One missing-key error value for every match whose variable reads as the empty
string, in the order of the matches. -/
def missingKeyErrors (env : Env) (ms : List Submatch) : List ErrRequiredEnvKeyMissing :=
  (ms.filter (fun m => decide (Getenv env m.group = []))).map (fun m => ⟨m.whole⟩)

/-- The environment in which no variable is set. -/
def emptyEnv : Env := fun _ => none

/-- The environment that sets the single variable `key` to `value`. -/
def singleEnv (key value : Str) : Env := fun k => if k = key then some value else none

/-- A name a placeholder can carry: a non-empty run of word characters. -/
def isName (w : Str) : Prop := w ≠ [] ∧ ∀ c ∈ w, isWordChar c = true

instance (w : Str) : Decidable (isName w) := by
  unfold isName; infer_instance

/-- The loop body when nothing is missing: one `ReplaceAll` for each match, each applied
to the text the previous one produced. -/
def replaceEach (env : Env) (content : Str) (ms : List Submatch) : Str :=
  ms.foldl (fun c m => ReplaceAll c m.whole (Getenv env m.group)) content

/-- A value with dollar signs, braces, a backslash, regular-expression metacharacters and
the placeholder of `FOO` in it. -/
def metaValue : Str := "^$1\\.*$\x7bFOO\x7d\x7b\x7d\x7d[a-z]+$".toList

/-! ## Notions for simultaneous substitution -/

/-- Every dollar sign of the text is the first character of a match of `recb`. -/
def everyDollarStartsPlaceholder : Str → Bool
  | [] => true
  | c :: t => (c != '$' || (recbMatchAt (c :: t)).isSome) && everyDollarStartsPlaceholder t

/-- The scan behind `substituteSimultaneously`; the numeric argument counts the characters
of the placeholder just replaced that are still to be passed over. -/
def expandFrom (env : Env) : Nat → Str → Str
  | _, [] => []
  | n + 1, _ :: t => expandFrom env n t
  | 0, c :: t =>
    match recbMatchAt (c :: t) with
    | some m => Getenv env m.group ++ expandFrom env (m.whole.length - 1) t
    | none => c :: expandFrom env 0 t

/-- The text in which every match of `recb` is replaced, all at once, by the value of its
variable: the values are copied and never scanned. -/
def substituteSimultaneously (env : Env) (content : Str) : Str := expandFrom env 0 content

/-- A text cut into pieces: single characters and placeholders. -/
inductive Piece where
  | lit (c : Char)
  | var (name : Str)
deriving DecidableEq, Repr

/-- A literal piece is not a dollar sign, and a placeholder piece carries a name. -/
def Piece.wf : Piece → Prop
  | .lit c => c ≠ '$'
  | .var w => isName w

/-- The text of a piece once the variables of `S` have been replaced by their values. -/
def Piece.text (env : Env) (S : List Str) : Piece → Str
  | .lit c => [c]
  | .var w => if w ∈ S then Getenv env w else placeholder w

/-- The text of a list of pieces once the variables of `S` have been replaced. -/
def render (env : Env) (S : List Str) (ps : List Piece) : Str :=
  ps.flatMap (Piece.text env S)

/-- The environment of the example of the specification. -/
def hostPortEnv : Env := fun k =>
  if k = "HOST".toList then some "api.example.com".toList
  else if k = "PORT".toList then some "443".toList
  else none

/-! ## The parameter model of `params.go` -/

/-- Configuration represents endpoint config. -/
structure Configuration where
  RetryTimeOut : Option Int
  RetryDelay : Option Int
  Factor : Option Int
  RetryErroCode : Option Int
  SuspendErrorCode : Option Int
  SuspendDuration : Option Int
  SuspendMaxDuration : Option Int
  ActionSelect : Option Str
  ActionDuration : Option Int
deriving DecidableEq, Repr

/-- Endpoint details. -/
structure Endpoint where
  Url : Option Str
  Config : Option Configuration
deriving DecidableEq, Repr

/-- EndpointData contains details about endpoints. -/
structure EndpointData where
  Production : Option Endpoint
  Sandbox : Option Endpoint
deriving DecidableEq, Repr

/-- LoadBalanceEndpointsData contains details about endpoints mainly to be used in load
balancing. -/
structure LoadBalanceEndpointsData where
  EndpointType : Str
  Production : List Endpoint
  Sandbox : List Endpoint
  SessionManagement : Str
  SessionTimeout : Int
  AlgorithmClassName : Str
  AlgorithmCombName : Str
deriving DecidableEq, Repr

/-- FailoverEndpointsData contains details about endpoints mainly to be used in
failover. -/
structure FailoverEndpointsData where
  EndpointType : Str
  Production : Option Endpoint
  ProductionFailovers : List Endpoint
  Sandbox : Option Endpoint
  SandboxFailovers : List Endpoint
  Failover : Bool
deriving DecidableEq, Repr

/-- SecurityData contains the details about endpoint security. -/
structure SecurityData where
  Enabled : Str
  /-- The field `Type` of the source; `Type` is a reserved word here. -/
  Type_ : Str
  Username : Str
  Password : Str
deriving DecidableEq, Repr

/-- Cert stores certificate details. -/
structure Cert where
  Host : Str
  Alias : Str
  Path : Str
  Certificate : Str
deriving DecidableEq, Repr

/-- APIIdentifier stores API Identifier details. -/
structure APIIdentifier where
  ProviderName : Str
  APIName : Str
  Version : Str
deriving DecidableEq, Repr

/-- MutualSslCert stores mutualssl certificate details. -/
structure MutualSslCert where
  TierName : Str
  Alias : Str
  Path : Str
  Certificate : Str
  APIIdentifier : APIIdentifier
deriving DecidableEq, Repr

/-- Environment represents an api environment. -/
structure Environment where
  Name : Str
  Endpoints : Option EndpointData
  LoadBalanceEndpoints : Option LoadBalanceEndpointsData
  FailoverEndpoints : Option FailoverEndpointsData
  Security : Option SecurityData
  GatewayEnvironments : List Str
  Certs : List Cert
  MutualSslCerts : List MutualSslCert
  Policies : List Str
deriving DecidableEq, Repr

/-- ApiParams represents environments defined in configuration file. -/
structure ApiParams where
  Environments : List Environment
deriving DecidableEq, Repr

/-- The loop of `GetEnv`: `index` is the position, in the whole slice, of the first
element of the part still to be visited. -/
def getEnvLoop (key : Str) : Nat → List Environment → Option Nat
  | _, [] => none
  | index, env :: rest =>
    if env.Name = key then some index else getEnvLoop key (index + 1) rest

/-- Go `GetEnv`. The result is a pointer to an element of `config.Environments`: it is
modelled by the index of that element, and `none` is the nil pointer. -/
def ApiParams.GetEnv (config : ApiParams) (key : Str) : Option Nat :=
  getEnvLoop key 0 config.Environments

/-- An environment record with the given name and subscription policies, and nothing
else configured. -/
def environmentNamed (name : Str) (policies : List Str) : Environment :=
  { Name := name, Endpoints := none, LoadBalanceEndpoints := none,
    FailoverEndpoints := none, Security := none, GatewayEnvironments := [],
    Certs := [], MutualSslCerts := [], Policies := policies }

/-! ## Errors and the file system

The file operations are library functions (`ioutil.ReadFile`, `ioutil.WriteFile`,
`os.Stat`, `filepath.Walk`, `strings.HasSuffix`); they are modelled on a file system that
is the list of its entries, each with the path that names it. -/

/-- The values of the Go type `error` that the modelled functions return. -/
inductive GoError where
  /-- An error of a file operation, `*os.PathError`: the operation and the path. -/
  | pathError (op path : Str)
  /-- The aggregate of missing-key errors of `EnvSubstituteForCurlyBraces`. -/
  | missingKeys (me : MultiError)
  /-- An error of `yaml.Unmarshal`. -/
  | yamlError (msg : Str)
  /-- The `*json.SyntaxError` of `json.Unmarshal` for malformed input. -/
  | jsonSyntaxError
  /-- The `*json.UnmarshalTypeError`: a JSON value of the named kind does not fit. -/
  | jsonUnmarshalTypeError (value : Str)
  /-- The error `filepath.ErrBadPattern`. -/
  | badPattern
  /-- The sentinel `io.EOF`. -/
  | EOF
deriving DecidableEq, Repr

deriving instance DecidableEq for Except

/-- What `Mode()` of a file's `os.FileInfo` tells: a regular file, a directory, or
something else. -/
inductive FileKind where
  | regular
  | directory
  | other
deriving DecidableEq, Repr

/-- One entry of the file system: a directory, or a file with its content, regular or
not; for both, whether the process may open it for reading and for writing. -/
inductive FileNode where
  | directory (readable writable : Bool)
  | file (regular : Bool) (content : Str) (readable writable : Bool)
deriving DecidableEq, Repr

/-- The kind of an entry. -/
def FileNode.kind : FileNode → FileKind
  | .directory _ _ => .directory
  | .file true _ _ _ => .regular
  | .file false _ _ _ => .other

/-- The content of an entry; a directory has none. -/
def FileNode.content : FileNode → Str
  | .directory _ _ => []
  | .file _ c _ _ => c

/-- The process may open the entry for reading. -/
def FileNode.readable : FileNode → Bool
  | .directory r _ => r
  | .file _ _ r _ => r

/-- The process may open the entry for writing. -/
def FileNode.writable : FileNode → Bool
  | .directory _ w => w
  | .file _ _ _ w => w

/-- The entry with the content `data`; its kind and permissions stay, and a directory
stays as it is. -/
def FileNode.withContent : FileNode → Str → FileNode
  | .directory r w, _ => .directory r w
  | .file k _ r w, data => .file k data r w

/-- The file system: its entries with their paths. -/
abbrev FileSystem := List (Str × FileNode)

/-- The entry that `path` names: the first one of the list with that path. -/
def lookupFile : FileSystem → Str → Option FileNode
  | [], _ => none
  | (p, n) :: rest, path => if p = path then some n else lookupFile rest path

/-- The file system in which the entry named `path` has the content `data`; its kind
and permissions stay. -/
def setContent : FileSystem → Str → Str → FileSystem
  | [], _, _ => []
  | (p, n) :: rest, path, data =>
    if p = path then (p, n.withContent data) :: setContent rest path data
    else (p, n) :: setContent rest path data

/-- Go `ioutil.ReadFile`: the content; the error of `open` for a path that names nothing
or something the process may not read; the error of `read` (`is a directory`) for a
directory, which can be opened but not read. -/
def ReadFile (fs : FileSystem) (file : Str) : Except GoError Str :=
  match lookupFile fs file with
  | some n =>
    if n.readable then
      if n.kind = .directory then .error (.pathError "read".toList file)
      else .ok n.content
    else .error (.pathError "open".toList file)
  | none => .error (.pathError "open".toList file)

/-- Go `ioutil.WriteFile(file, data, 0644)`: an existing file is overwritten and keeps its
permissions, a missing one is created as a regular file with mode `0644`; an error, and no
change, when the path names a directory or a file that the process may not write. -/
def WriteFile (fs : FileSystem) (file data : Str) : FileSystem × Option GoError :=
  match lookupFile fs file with
  | some n =>
    if n.kind = .directory then (fs, some (.pathError "open".toList file))
    else if n.writable then (setContent fs file data, none)
    else (fs, some (.pathError "open".toList file))
  | none => (fs ++ [(file, .file true data true true)], none)

/-- Go `os.Stat`: the kind of what `path` names, or an error when it names nothing. -/
def Stat (fs : FileSystem) (path : Str) : Except GoError FileKind :=
  match lookupFile fs path with
  | some n => .ok n.kind
  | none => .error (.pathError "stat".toList path)

/-- Go `strings.HasSuffix`. -/
def HasSuffix (s suffix : Str) : Bool := suffix.isSuffixOf s

/-! ## `EnvSubstituteInFile` and `EnvSubstituteInFolder` -/

/-- The two steps that both branches of `EnvSubstituteInFile` perform with the content
read from the file: substitute, return the error if there is one; write the result, return
the error if there is one. -/
def substituteAndWrite (env : Env) (fs : FileSystem) (file content : Str) :
    FileSystem × Option GoError :=
  match EnvSubstituteForCurlyBraces env content with
  | (_, some me) => (fs, some (.missingKeys me))
  | (substitutedContent, none) => WriteFile fs file substitutedContent

/-- The loop `for _, extension := range fileExtensions` of `EnvSubstituteInFile`; `content`
is what was read from the file before the loop. -/
def substituteForExtensions (env : Env) (file content : Str) :
    List Str → FileSystem → FileSystem × Option GoError
  | [], fs => (fs, none)
  | extension :: rest, fs =>
    if HasSuffix file extension then
      match substituteAndWrite env fs file content with
      | (fs1, some err) => (fs1, some err)
      | (fs1, none) => substituteForExtensions env file content rest fs1
    else substituteForExtensions env file content rest fs

/-- Go `EnvSubstituteInFile`: the file system after the call and the returned error.
The slice `fileExtensions` is `none` when it is nil and `some l` otherwise, also for a
slice of length zero. -/
def EnvSubstituteInFile (env : Env) (fs : FileSystem) (file : Str)
    (fileExtensions : Option (List Str)) : FileSystem × Option GoError :=
  match ReadFile fs file with
  | .error err => (fs, some err)
  | .ok content =>
    match fileExtensions with
    | none => substituteAndWrite env fs file content
    | some exts => substituteForExtensions env file content exts fs

/-- One call of the function given to `filepath.Walk`: the path, the kind that `Lstat`
reported, and the error of reading the entry, if any. -/
structure WalkEntry where
  path : Str
  info : FileKind
  err : Option GoError
deriving DecidableEq, Repr

/-- Go `filepath.Walk` for a function that never returns `filepath.SkipDir`: the entries
of the tree, which the walk lists in lexical order, are given to the function one after
the other, and the first error it returns ends the walk and is returned. -/
def Walk {σ : Type} (walkFn : WalkEntry → σ → σ × Option GoError) :
    List WalkEntry → σ → σ × Option GoError
  | [], s => (s, none)
  | entry :: rest, s =>
    match walkFn entry s with
    | (s1, some err) => (s1, some err)
    | (s1, none) => Walk walkFn rest s1

/-- The function that `EnvSubstituteInFolder` gives to `filepath.Walk`. -/
def substituteWalkFn (env : Env) (fileExtensions : Option (List Str)) (entry : WalkEntry)
    (fs : FileSystem) : FileSystem × Option GoError :=
  match entry.err with
  | some err => (fs, some err)
  | none =>
    match Stat fs entry.path with
    | .error err => (fs, some err)
    | .ok fi =>
      if fi = .regular then EnvSubstituteInFile env fs entry.path fileExtensions
      else (fs, none)

/-- Go `EnvSubstituteInFolder`; `visits` are the entries that the walk of `folderPath`
lists, in the order of the walk. -/
def EnvSubstituteInFolder (env : Env) (fs : FileSystem) (visits : List WalkEntry)
    (fileExtensions : Option (List Str)) : FileSystem × Option GoError :=
  Walk (substituteWalkFn env fileExtensions) visits fs

/-- The file is selected for substitution: the extension slice is nil, or the path ends
with one of its elements. -/
def selected (file : Str) (fileExtensions : Option (List Str)) : Bool :=
  match fileExtensions with
  | none => true
  | some exts => exts.any (fun extension => HasSuffix file extension)

/-- What `EnvSubstituteInFile` does with the entry that the path names, read off that
entry alone: the content it writes, if it writes, and the error it returns. -/
def fileOutcome (env : Env) (file : Str) (fileExtensions : Option (List Str))
    (node : Option FileNode) : Option Str × Option GoError :=
  match node with
  | none => (none, some (.pathError "open".toList file))
  | some n =>
    if n.readable then
      if n.kind = .directory then (none, some (.pathError "read".toList file))
      else if selected file fileExtensions then
        match EnvSubstituteForCurlyBraces env n.content with
        | (_, some me) => (none, some (.missingKeys me))
        | (s, none) =>
          if n.writable then (some s, none)
          else (none, some (.pathError "open".toList file))
      else (none, none)
    else (none, some (.pathError "open".toList file))

/-- The file system after an outcome: the content written, if any. -/
def applyOutcome (fs : FileSystem) (file : Str) (written : Option Str) : FileSystem :=
  match written with
  | some s => setContent fs file s
  | none => fs

/-- A regular file that the process may read and write. -/
def plainFile (content : Str) : FileNode := .file true content true true

/-- A regular file that the process may read but not write. -/
def readOnlyFile (content : Str) : FileNode := .file true content true false

/-- A directory. -/
def directoryNode : FileNode := .directory true true

/-- A folder `d` with three files for the examples: the second one holds a placeholder
whose variable is not set. -/
def exampleFolder : FileSystem :=
  [("d".toList, directoryNode),
   ("d/a.yaml".toList, plainFile "x: ${HOST}".toList),
   ("d/b.yaml".toList, plainFile "y: ${UNSET}".toList),
   ("d/c.yaml".toList, plainFile "z: ${PORT}".toList)]

/-- The entries that the walk of the folder `d` of `exampleFolder` lists. -/
def exampleVisits : List WalkEntry :=
  [⟨"d".toList, .directory, none⟩, ⟨"d/a.yaml".toList, .regular, none⟩,
   ⟨"d/b.yaml".toList, .regular, none⟩, ⟨"d/c.yaml".toList, .regular, none⟩]

/-! ## `LoadApiParams` -/

/-- Modelled from the spec: `utils.EnvSubstitute`, the function that `LoadApiParams`
calls, is not among the sources. The specification (4.3) says that the loader runs "the
Resolver's curly-brace substitution", so it is taken to be the substitution of
`EnvSubstituteForCurlyBraces`. -/
def EnvSubstitute (env : Env) (content : Str) : Str × Option MultiError :=
  EnvSubstituteForCurlyBraces env content

/-- Go `LoadApiParams`: the returned pointer (`none` is nil) and the returned error.
`r` is what `ioutil.ReadAll` gives for the reader. The substitution is the argument
`envSubstitute`, and `yamlUnmarshal` stands for `yaml.Unmarshal` into the fresh
`ApiParams`: the error text, or the pointer as the decoder leaves it. -/
def LoadApiParams (envSubstitute : Str → Str × Option MultiError)
    (yamlUnmarshal : Str → Except Str (Option ApiParams)) (r : Except GoError Str) :
    Option ApiParams × Option GoError :=
  match r with
  | .error err => (none, some err)
  | .ok data =>
    match envSubstitute data with
    | (_, some me) => (none, some (.missingKeys me))
    | (str, none) =>
      match yamlUnmarshal str with
      | .error msg => (none, some (.yamlError msg))
      | .ok apiParams => (apiParams, none)

/-- Parsing a document text directly: `yaml.Unmarshal` on the text itself, with the
results that `LoadApiParams` gives for the outcome of the parser. -/
def parseDirectly (yamlUnmarshal : Str → Except Str (Option ApiParams)) (text : Str) :
    Option ApiParams × Option GoError :=
  match yamlUnmarshal text with
  | .error msg => (none, some (.yamlError msg))
  | .ok apiParams => (apiParams, none)

/-- A stand-in for the parser in the examples: it accepts the one document `ok` and
gives an error for every other text. -/
def exampleUnmarshal (text : Str) : Except Str (Option ApiParams) :=
  if text = "environments: []".toList then .ok (some ⟨[]⟩)
  else .error ("cannot parse: ".toList ++ text)

/-! ## `ExtractAPIEndpointConfig`

`json.Unmarshal` is a library function. Its documented behaviour is modelled on the JSON
value that the input denotes: a syntax error for input that is not JSON; for a struct,
object keys are matched to the keys of the fields, "preferring an exact match but also
accepting a case-insensitive match"; a later member overwrites what an earlier one set; a
JSON value that does not fit the field is skipped and the earliest such mismatch is
returned as the error at the end; `null` for a field has no effect, and `null` for a
pointer sets the pointer to nil. -/

/-- APIEndpointConfig contains details about endpoints in an API. -/
structure APIEndpointConfig where
  /-- EPConfig is representing endpoint configuration; its JSON key is
  `endpointConfig`. -/
  EPConfig : Str
deriving DecidableEq, Repr

/-- A JSON value. -/
inductive Json where
  | null
  | bool (b : Bool)
  | number (literal : Str)
  | string (s : Str)
  | array (items : List Json)
  | object (members : List (Str × Json))

/-- The name by which `json.UnmarshalTypeError` calls the kind of a JSON value. -/
def Json.kindName : Json → Str
  | .null => "null".toList
  | .bool _ => "bool".toList
  | .number _ => "number".toList
  | .string _ => "string".toList
  | .array _ => "array".toList
  | .object _ => "object".toList

/-- The object keys that the decoder takes for the field `EPConfig`: the key
`endpointConfig` of its tag, exactly or up to the case of the letters. -/
def matchesEndpointConfig (key : Str) : Bool :=
  key.map Char.toLower = "endpointconfig".toList

/-- The decoder on one member of an object: the struct and the earliest saved error
before and after. -/
def decodeMember (st : APIEndpointConfig × Option GoError) (member : Str × Json) :
    APIEndpointConfig × Option GoError :=
  if matchesEndpointConfig member.1 then
    match member.2 with
    | .string s => ({ st.1 with EPConfig := s }, st.2)
    | .null => st
    | other =>
      match st.2 with
      | some err => (st.1, some err)
      | none => (st.1, some (.jsonUnmarshalTypeError other.kindName))
  else st

/-- Go `json.Unmarshal(b, &apiConfig)` for `apiConfig` of type `*APIEndpointConfig`
pointing to the struct `init`: the pointer afterwards (`none` is nil) and the error.
`doc` is the JSON value that `b` denotes, `none` when `b` is malformed. -/
def jsonUnmarshal (doc : Option Json) (init : APIEndpointConfig) :
    Option APIEndpointConfig × Option GoError :=
  match doc with
  | none => (some init, some .jsonSyntaxError)
  | some .null => (none, none)
  | some (.object members) =>
    ((some (members.foldl decodeMember (init, none)).1),
      (members.foldl decodeMember (init, none)).2)
  | some other => (some init, some (.jsonUnmarshalTypeError other.kindName))

/-- Go `ExtractAPIEndpointConfig`. `jsonParse` gives the JSON value that the bytes
denote, `none` for malformed input. The result is `none` when the function does not return
because it dereferences the nil pointer. -/
def ExtractAPIEndpointConfig (jsonParse : Str → Option Json) (b : Str) :
    Option (Str × Option GoError) :=
  match jsonUnmarshal (jsonParse b) ⟨[]⟩ with
  | (_, some err) => some ([], some err)
  | (some apiConfig, none) => some (apiConfig.EPConfig, none)
  | (none, none) => none

/-- The JSON values of the documents used in the examples; every other input counts as
malformed. -/
def exampleJsonParse (b : Str) : Option Json :=
  if b = "\x7b\"endpointConfig\":\"\x7b...\x7d\"\x7d".toList then
    some (.object [("endpointConfig".toList, .string "\x7b...\x7d".toList)])
  else if b = "\x7b\"EndpointConfig\":\"x\"\x7d".toList then
    some (.object [("EndpointConfig".toList, .string "x".toList)])
  else if b = "\x7b\"endpointConfig\":\"a\",\"ENDPOINTCONFIG\":7\x7d".toList then
    some (.object [("endpointConfig".toList, .string "a".toList),
      ("ENDPOINTCONFIG".toList, .number "7".toList)])
  else if b = "\x7b\"name\":\"n\"\x7d".toList then
    some (.object [("name".toList, .string "n".toList)])
  else if b = "null".toList then some .null
  else none

/-! ## `GetFileLocationFromPattern` -/

/-- The function that `GetFileLocationFromPattern` gives to `filepath.Walk`; the state is
the variable `match` of the enclosing function. `pathMatch`, `pathBase` and `pathAbs`
stand for `filepath.Match`, `filepath.Base` and `filepath.Abs`. -/
def patternWalkFn (pathMatch : Str → Str → Except GoError Bool) (pathBase : Str → Str)
    (pathAbs : Str → Except GoError Str) (pattern : Str) (entry : WalkEntry)
    (found : Str) : Str × Option GoError :=
  match entry.err with
  | some err => (found, some err)
  | none =>
    if entry.info = .directory then (found, none)
    else
      match pathMatch pattern (pathBase entry.path) with
      | .error err => (found, some err)
      | .ok true =>
        match pathAbs entry.path with
        | .error err => ([], some err)
        | .ok abs => (abs, some .EOF)
      | .ok false => (found, none)

/-- Go `GetFileLocationFromPattern`; `visits` are the entries that the walk of `root`
lists, in the order of the walk. -/
def GetFileLocationFromPattern (pathMatch : Str → Str → Except GoError Bool)
    (pathBase : Str → Str) (pathAbs : Str → Except GoError Str)
    (visits : List WalkEntry) (pattern : Str) : Str × Option GoError :=
  Walk (patternWalkFn pathMatch pathBase pathAbs pattern) visits []

/-- A stand-in for `filepath.Base` in the examples: what follows the last slash. -/
def exampleBase (path : Str) : Str :=
  (path.reverse.takeWhile (fun c => c != '/')).reverse

/-- A stand-in for `filepath.Match` in the examples: the pattern `*` followed by a
suffix matches the names that end with the suffix; any other pattern matches itself. -/
def exampleMatch (pattern name : Str) : Except GoError Bool :=
  match pattern with
  | '*' :: suffix => .ok (HasSuffix name suffix)
  | _ => .ok (decide (pattern = name))

/-- A stand-in for `filepath.Abs` in the examples: the working directory is `/w`. -/
def exampleAbs (path : Str) : Except GoError Str := .ok ("/w/".toList ++ path)

/-! ## Basic facts about the environment and the loop -/

theorem Getenv_eq_nil_iff (env : Env) (key : Str) :
    Getenv env key = [] ↔ unsetOrEmpty env key := by
  unfold Getenv unsetOrEmpty
  cases h : env key with
  | none => simp
  | some v => simp

theorem missingKeyErrors_nil (env : Env) : missingKeyErrors env [] = [] := rfl

theorem missingKeyErrors_cons (env : Env) (m : Submatch) (ms : List Submatch) :
    missingKeyErrors env (m :: ms) =
      if Getenv env m.group = [] then ⟨m.whole⟩ :: missingKeyErrors env ms
      else missingKeyErrors env ms := by
  unfold missingKeyErrors
  by_cases h : Getenv env m.group = [] <;> simp [List.filter_cons, h]

theorem missingKeyErrors_eq_nil_iff (env : Env) (ms : List Submatch) :
    missingKeyErrors env ms = [] ↔ ∀ m ∈ ms, Getenv env m.group ≠ [] := by
  unfold missingKeyErrors
  simp [List.filter_eq_nil_iff]

theorem errorsOf_multierrorAppend (err : Option MultiError) (e : ErrRequiredEnvKeyMissing) :
    (multierrorAppend err e).Errors = errorsOf err ++ [e] := by
  cases err <;> rfl

/-- The flag and the aggregate error after the loop has run over `ms`. -/
theorem foldl_substStep_errors (env : Env) (ms : List Submatch) (st : SubstState) :
    (ms.foldl (substStep env) st).missingEnvKeys
        = (st.missingEnvKeys || !(missingKeyErrors env ms).isEmpty) ∧
    (ms.foldl (substStep env) st).errorResults
        = if missingKeyErrors env ms = [] then st.errorResults
          else some ⟨errorsOf st.errorResults ++ missingKeyErrors env ms⟩ := by
  induction ms generalizing st with
  | nil => simp [missingKeyErrors_nil]
  | cons m ms ih =>
    rw [List.foldl_cons, missingKeyErrors_cons]
    by_cases h : Getenv env m.group = []
    · have hs : substStep env st m =
          { st with
            missingEnvKeys := true
            errorResults := some (multierrorAppend st.errorResults ⟨m.whole⟩) } := by
        simp [substStep, h]
      rw [hs]
      obtain ⟨h1, h2⟩ := ih { st with
            missingEnvKeys := true
            errorResults := some (multierrorAppend st.errorResults ⟨m.whole⟩) }
      rw [h1, h2]
      simp only [h, if_true]
      refine ⟨by simp, ?_⟩
      by_cases hk : missingKeyErrors env ms = []
      · simp [hk, errorsOf, errorsOf_multierrorAppend]
        cases hst : st.errorResults <;> simp [multierrorAppend, errorsOf]
      · simp [hk, errorsOf, errorsOf_multierrorAppend]
    · have hs : substStep env st m =
          { st with content := ReplaceAll st.content m.whole (Getenv env m.group) } := by
        simp [substStep, h]
      rw [hs]
      obtain ⟨h1, h2⟩ := ih { st with
            content := ReplaceAll st.content m.whole (Getenv env m.group) }
      rw [h1, h2]
      simp [h]

/-- The error returned by `EnvSubstituteForCurlyBraces`, in closed form. -/
theorem EnvSubstituteForCurlyBraces_error (env : Env) (content : Str) :
    (EnvSubstituteForCurlyBraces env content).2 =
      if missingKeyErrors env (FindAllStringSubmatch content) = [] then none
      else some ⟨missingKeyErrors env (FindAllStringSubmatch content)⟩ := by
  obtain ⟨h1, h2⟩ := foldl_substStep_errors env (FindAllStringSubmatch content)
    ⟨content, none, false⟩
  unfold EnvSubstituteForCurlyBraces
  simp only [h1, h2]
  by_cases hk : missingKeyErrors env (FindAllStringSubmatch content) = []
  · simp [hk]
  · simp [hk, errorsOf]

/-- On failure the returned string is empty. -/
theorem EnvSubstituteForCurlyBraces_fst_of_error (env : Env) (content : Str)
    (h : (EnvSubstituteForCurlyBraces env content).2 ≠ none) :
    (EnvSubstituteForCurlyBraces env content).1 = [] := by
  unfold EnvSubstituteForCurlyBraces at h ⊢
  by_cases hm : ((FindAllStringSubmatch content).foldl (substStep env)
      ⟨content, none, false⟩).missingEnvKeys = true
  · simp [hm]
  · simp [hm] at h

/-! ## Facts about the matcher -/

theorem takeWhile_word_append (w r : Str) (hw : ∀ c ∈ w, isWordChar c = true) :
    (w ++ '}' :: r).takeWhile isWordChar = w ∧
    (w ++ '}' :: r).dropWhile isWordChar = '}' :: r := by
  induction w with
  | nil =>
    have h : isWordChar '}' = false := by decide
    simp [List.takeWhile_cons, List.dropWhile_cons, h]
  | cons a w ih =>
    have ha : isWordChar a = true := hw a (List.mem_cons_self _ _)
    have ih2 := ih (fun c hc => hw c (List.mem_cons_of_mem _ hc))
    simp [List.takeWhile_cons, List.dropWhile_cons, ha, ih2.1, ih2.2]

theorem recbMatchAt_placeholder (w r : Str) (hw : isName w) :
    recbMatchAt (placeholder w ++ r) = some ⟨placeholder w, w⟩ := by
  obtain ⟨h1, h2⟩ := takeWhile_word_append w r hw.2
  have : placeholder w ++ r = '$' :: '{' :: (w ++ '}' :: r) := by
    simp [placeholder]
  rw [this]
  simp [recbMatchAt, h1, h2, hw.1]

theorem recbMatchAt_of_ne_dollar (c : Char) (t : Str) (hc : c ≠ '$') :
    recbMatchAt (c :: t) = none := by
  cases t with
  | nil => rfl
  | cons d t => simp [recbMatchAt, hc]

theorem recbMatchAt_some {s : Str} {m : Submatch} (h : recbMatchAt s = some m) :
    m.whole = placeholder m.group ∧ isName m.group ∧ ∃ r, s = placeholder m.group ++ r := by
  match s, h with
  | c :: d :: t, h =>
    simp only [recbMatchAt] at h
    split at h
    · rename_i hc
      obtain ⟨hc1, hc2, hc3, hc4⟩ := hc
      cases h
      refine ⟨rfl, ⟨hc3, ?_⟩, ?_⟩
      · intro x hx
        exact (List.mem_takeWhile_imp hx)
      · have hsplit := List.takeWhile_append_dropWhile isWordChar t
        cases hd : t.dropWhile isWordChar with
        | nil => rw [hd] at hc4; simp at hc4
        | cons b r =>
          rw [hd] at hc4
          simp at hc4
          subst hc4
          refine ⟨r, ?_⟩
          rw [hd] at hsplit
          subst hc1; subst hc2
          simp only [placeholder]
          simp
          exact hsplit.symm
    · cases h

theorem findAllFrom_skip (l r : Str) : findAllFrom l.length (l ++ r) = findAllFrom 0 r := by
  induction l with
  | nil => rfl
  | cons a l ih => simpa [findAllFrom] using ih

theorem placeholder_length (w : Str) : (placeholder w).length = w.length + 3 := by
  simp [placeholder]

theorem FindAllStringSubmatch_cons_of_none (c : Char) (t : Str)
    (h : recbMatchAt (c :: t) = none) :
    FindAllStringSubmatch (c :: t) = FindAllStringSubmatch t := by
  simp [FindAllStringSubmatch, findAllFrom, h]

theorem FindAllStringSubmatch_placeholder_append (w r : Str) (hw : isName w) :
    FindAllStringSubmatch (placeholder w ++ r) =
      ⟨placeholder w, w⟩ :: FindAllStringSubmatch r := by
  have hm := recbMatchAt_placeholder w r hw
  have hcons : placeholder w ++ r = '$' :: (('{' :: (w ++ ['}'])) ++ r) := by
    simp [placeholder]
  unfold FindAllStringSubmatch
  rw [hcons] at hm ⊢
  simp only [findAllFrom, hm]
  congr 1
  exact findAllFrom_skip (w ++ ['}']) r

/-- Every reported match is a placeholder: `match[0]` is `match[1]` between the dollar
and brace and the closing brace, and `match[1]` is a name. -/
theorem mem_findAllFrom (n : Nat) (s : Str) (m : Submatch) (h : m ∈ findAllFrom n s) :
    m.whole = placeholder m.group ∧ isName m.group := by
  induction s generalizing n with
  | nil => simp [findAllFrom] at h
  | cons c t ih =>
    cases n with
    | succ k => exact ih k (by simpa [findAllFrom] using h)
    | zero =>
      simp only [findAllFrom] at h
      cases hm : recbMatchAt (c :: t) with
      | none => rw [hm] at h; exact ih 0 h
      | some m0 =>
        rw [hm] at h
        rcases List.mem_cons.mp h with h1 | h1
        · subst h1
          exact ⟨(recbMatchAt_some hm).1, (recbMatchAt_some hm).2.1⟩
        · exact ih _ h1

theorem mem_FindAllStringSubmatch (s : Str) (m : Submatch)
    (h : m ∈ FindAllStringSubmatch s) :
    m.whole = placeholder m.group ∧ isName m.group :=
  mem_findAllFrom 0 s m h


/-! ## Matches in front of a dollar sign -/

theorem takeWhile_append_stop (p : Char → Bool) (t r : Str) (a : Char) (ha : p a = false) :
    (t ++ a :: r).takeWhile p = t.takeWhile p := by
  induction t with
  | nil => simp [List.takeWhile_cons, ha]
  | cons x t ih => by_cases hx : p x = true <;> simp [List.takeWhile_cons, hx, ih]

theorem head_dropWhile_append_stop (p : Char → Bool) (t r : Str) (a b : Char)
    (ha : p a = false) (hab : a ≠ b) :
    ((t ++ a :: r).dropWhile p).head? = some b ↔ (t.dropWhile p).head? = some b := by
  induction t with
  | nil => simp [List.dropWhile_cons, ha, hab]
  | cons x t ih => by_cases hx : p x = true <;> simp [List.dropWhile_cons, hx, ih]

/-- A dollar sign ends every attempt to match: what follows it does not matter for the
matches that start before it. -/
theorem recbMatchAt_append_dollar (x r : Str) (hx : x ≠ []) :
    recbMatchAt (x ++ '$' :: r) = recbMatchAt x := by
  match x, hx with
  | [c], _ =>
    have : ¬ ('$' : Char) = '{' := by decide
    simp [recbMatchAt, this]
  | c :: d :: t, _ =>
    have hd : isWordChar '$' = false := by decide
    have hne : ('$' : Char) ≠ '}' := by decide
    have h1 := takeWhile_append_stop isWordChar t r '$' hd
    have h2 := head_dropWhile_append_stop isWordChar t r '$' '}' hd hne
    simp only [List.cons_append, recbMatchAt, h1, h2]

theorem recbMatchAt_length_le {s : Str} {m : Submatch} (h : recbMatchAt s = some m) :
    m.whole.length ≤ s.length := by
  obtain ⟨h1, _, r, hr⟩ := recbMatchAt_some h
  rw [h1, hr]
  simp

theorem findAllFrom_zero_cons (c : Char) (t : Str) :
    findAllFrom 0 (c :: t) =
      match recbMatchAt (c :: t) with
      | some m => m :: findAllFrom (m.whole.length - 1) t
      | none => findAllFrom 0 t := rfl

theorem replaceFrom_zero_cons (old new : Str) (c : Char) (t : Str) :
    replaceFrom old new 0 (c :: t) =
      if old.isPrefixOf (c :: t) then new ++ replaceFrom old new (old.length - 1) t
      else c :: replaceFrom old new 0 t := rfl

theorem findAllFrom_append_dollar (x r : Str) (n : Nat) (hn : n ≤ x.length) :
    findAllFrom n (x ++ '$' :: r) = findAllFrom n x ++ findAllFrom 0 ('$' :: r) := by
  induction x generalizing n with
  | nil =>
    have : n = 0 := by simpa using hn
    subst this
    simp [findAllFrom]
  | cons c t ih =>
    cases n with
    | succ k =>
      have hk : k ≤ t.length := by simpa using hn
      simpa [findAllFrom] using ih k hk
    | zero =>
      have hM := recbMatchAt_append_dollar (c :: t) r (by simp)
      rw [List.cons_append] at hM ⊢
      rw [findAllFrom_zero_cons c (t ++ '$' :: r), findAllFrom_zero_cons c t, hM]
      cases hm : recbMatchAt (c :: t) with
      | none => exact ih 0 (Nat.zero_le _)
      | some m =>
        have hle := recbMatchAt_length_le hm
        have hk : m.whole.length - 1 ≤ t.length := by
          simp at hle; omega
        simp only [ih _ hk, List.cons_append]

/-- The matches of a text that holds the placeholder of `w` somewhere: those in front of
it, the placeholder itself, those behind it. -/
theorem FindAllStringSubmatch_occurrence (pre post w : Str) (hw : isName w) :
    FindAllStringSubmatch (pre ++ placeholder w ++ post) =
      FindAllStringSubmatch pre ++ ⟨placeholder w, w⟩ :: FindAllStringSubmatch post := by
  have h1 : pre ++ placeholder w ++ post = pre ++ '$' :: ('{' :: (w ++ ['}']) ++ post) := by
    simp [placeholder]
  have h2 : '$' :: ('{' :: (w ++ ['}']) ++ post) = placeholder w ++ post := by
    simp [placeholder]
  unfold FindAllStringSubmatch
  rw [h1, findAllFrom_append_dollar pre _ 0 (Nat.zero_le _), h2]
  have := FindAllStringSubmatch_placeholder_append w post hw
  unfold FindAllStringSubmatch at this
  rw [this]

theorem not_infix_of_FindAll_nil (x w : Str) (hw : isName w)
    (h : FindAllStringSubmatch x = []) : ¬ placeholder w <:+: x := by
  rintro ⟨pre, post, hx⟩
  rw [← hx, FindAllStringSubmatch_occurrence pre post w hw] at h
  simp at h

/-! ## Facts about `ReplaceAll` -/

theorem replaceFrom_skip (old new l r : Str) :
    replaceFrom old new l.length (l ++ r) = replaceFrom old new 0 r := by
  induction l with
  | nil => rfl
  | cons a l ih => simpa [replaceFrom] using ih

theorem replaceFrom_prefix (old new r : Str) (ho : old ≠ []) :
    replaceFrom old new 0 (old ++ r) = new ++ replaceFrom old new 0 r := by
  match old, ho with
  | a :: o, _ =>
    have hp : (a :: o).isPrefixOf (a :: (o ++ r)) = true := by
      rw [List.isPrefixOf_iff_prefix]
      exact List.prefix_append (a :: o) r
    rw [List.cons_append]
    simp only [replaceFrom, hp, if_true]
    congr 1
    exact replaceFrom_skip (a :: o) new o r

theorem replaceFrom_of_not_infix (old new s : Str) (h : ¬ old <:+: s) :
    replaceFrom old new 0 s = s := by
  induction s with
  | nil => rfl
  | cons c t ih =>
    have hp : old.isPrefixOf (c :: t) = false := by
      rw [Bool.eq_false_iff]
      intro hp
      rw [List.isPrefixOf_iff_prefix] at hp
      exact h hp.isInfix
    have ht : ¬ old <:+: t := fun hi => h (hi.trans (List.suffix_cons c t).isInfix)
    simp [replaceFrom, hp, ih ht]

theorem ReplaceAll_of_not_infix (s old new : Str) (h : ¬ old <:+: s) :
    ReplaceAll s old new = s := by
  have ho : old ≠ [] := by
    rintro rfl
    exact h List.nil_infix
  simp [ReplaceAll, ho, replaceFrom_of_not_infix old new s h]

/-- Text in which `old` does not occur and which is followed by a dollar sign is copied
unchanged, when `old` starts with its only dollar sign. -/
theorem replaceFrom_append_dollar (o new x r : Str) (ho : '$' ∉ o)
    (h : ¬ ('$' :: o) <:+: x) :
    replaceFrom ('$' :: o) new 0 (x ++ '$' :: r) =
      x ++ replaceFrom ('$' :: o) new 0 ('$' :: r) := by
  induction x with
  | nil => rfl
  | cons c t ih =>
    have ht : ¬ ('$' :: o) <:+: t := fun hi => h (hi.trans (List.suffix_cons c t).isInfix)
    have hp : ('$' :: o).isPrefixOf (c :: (t ++ '$' :: r)) = false := by
      rw [Bool.eq_false_iff]
      intro hp
      rw [List.isPrefixOf_iff_prefix] at hp
      have hp2 : ('$' :: o) <+: (c :: t) ++ '$' :: r := by simpa using hp
      rcases List.prefix_or_prefix_of_prefix hp2 (List.prefix_append (c :: t) ('$' :: r)) with
        h1 | h1
      · exact h h1.isInfix
      · obtain ⟨k, hk⟩ := h1
        rw [← hk] at hp2
        have hk2 : k <+: '$' :: r := (List.prefix_append_right_inj (c :: t)).mp hp2
        cases k with
        | nil =>
          apply h
          rw [← hk]
          simp
        | cons a k =>
          have ha : a = '$' := by
            obtain ⟨z, hz⟩ := hk2
            simp at hz
            exact hz.1
          subst ha
          apply ho
          have : o = t ++ '$' :: k := by
            simp at hk
            exact hk.2.symm
          rw [this]
          simp
    rw [List.cons_append, replaceFrom_zero_cons _ _ c (t ++ '$' :: r), hp, ih ht]
    simp

/-! ## The loop when every variable is set -/

theorem foldl_substStep_of_all_set (env : Env) (ms : List Submatch) (st : SubstState)
    (h : ∀ m ∈ ms, Getenv env m.group ≠ []) :
    ms.foldl (substStep env) st = { st with content := replaceEach env st.content ms } := by
  induction ms generalizing st with
  | nil => rfl
  | cons m ms ih =>
    have hm : Getenv env m.group ≠ [] := h m (List.mem_cons_self _ _)
    have hs : substStep env st m =
        { st with content := ReplaceAll st.content m.whole (Getenv env m.group) } := by
      simp [substStep, hm]
    rw [List.foldl_cons, hs, ih _ (fun x hx => h x (List.mem_cons_of_mem _ hx))]
    rfl

theorem EnvSubstituteForCurlyBraces_of_all_set (env : Env) (content : Str)
    (h : ∀ m ∈ FindAllStringSubmatch content, Getenv env m.group ≠ []) :
    EnvSubstituteForCurlyBraces env content =
      (replaceEach env content (FindAllStringSubmatch content), none) := by
  unfold EnvSubstituteForCurlyBraces
  rw [foldl_substStep_of_all_set env _ _ h]
  rfl

theorem replaceEach_of_fixed (env : Env) (c : Str) (ms : List Submatch)
    (h : ∀ m ∈ ms, ReplaceAll c m.whole (Getenv env m.group) = c) :
    replaceEach env c ms = c := by
  induction ms with
  | nil => rfl
  | cons m ms ih =>
    unfold replaceEach at ih ⊢
    rw [List.foldl_cons, h m (List.mem_cons_self _ _)]
    exact ih (fun x hx => h x (List.mem_cons_of_mem _ hx))

/-- The loop over matches that all are the placeholder of one variable with the value
`V`: `ReplaceAll` applied as many times in succession as there are matches. -/
theorem replaceEach_eq_iterate (env : Env) (tok V : Str) (ms : List Submatch) (c : Str)
    (h : ∀ m ∈ ms, m.whole = tok ∧ Getenv env m.group = V) :
    replaceEach env c ms = Nat.iterate (fun t => ReplaceAll t tok V) ms.length c := by
  induction ms generalizing c with
  | nil => rfl
  | cons m ms ih =>
    obtain ⟨h1, h2⟩ := h m (List.mem_cons_self _ _)
    have e : replaceEach env c (m :: ms) = replaceEach env (ReplaceAll c tok V) ms := by
      unfold replaceEach
      rw [List.foldl_cons, h1, h2]
    rw [e, ih _ (fun x hx => h x (List.mem_cons_of_mem _ hx))]
    rfl

theorem Getenv_of_some {env : Env} {key v : Str} (h : env key = some v) :
    Getenv env key = v := by
  simp [Getenv, h]

theorem dollar_not_mem_of_isName {w : Str} (hw : isName w) : '$' ∉ '{' :: (w ++ ['}']) := by
  intro h
  simp at h
  have := hw.2 '$' h
  revert this
  decide

theorem placeholder_ne_nil (w : Str) : placeholder w ≠ [] := by
  simp [placeholder]

theorem ReplaceAll_placeholder_once (pre post w v : Str) (hw : isName w)
    (hpre : FindAllStringSubmatch pre = []) (hpost : FindAllStringSubmatch post = []) :
    ReplaceAll (pre ++ placeholder w ++ post) (placeholder w) v = pre ++ v ++ post := by
  have h1 : pre ++ placeholder w ++ post = pre ++ '$' :: ('{' :: (w ++ ['}']) ++ post) := by
    simp [placeholder]
  have h2 : '$' :: ('{' :: (w ++ ['}']) ++ post) = placeholder w ++ post := by
    simp [placeholder]
  have h3 : placeholder w = '$' :: ('{' :: (w ++ ['}'])) := rfl
  have hn1 := not_infix_of_FindAll_nil pre w hw hpre
  have hn2 := not_infix_of_FindAll_nil post w hw hpost
  unfold ReplaceAll
  rw [if_neg (placeholder_ne_nil w), h1]
  rw [h3] at hn1 ⊢
  rw [replaceFrom_append_dollar _ v pre _ (dollar_not_mem_of_isName hw) hn1]
  rw [← h3, h2, replaceFrom_prefix _ _ _ (placeholder_ne_nil w),
    replaceFrom_of_not_infix _ _ _ hn2]
  simp

/-- On failure the aggregate error holds the error
values of `missingKeyErrors`. -/
theorem errors_of_failure (env : Env) (content : Str) (me : MultiError)
    (h : (EnvSubstituteForCurlyBraces env content).2 = some me) :
    me.Errors = missingKeyErrors env (FindAllStringSubmatch content) := by
  rw [EnvSubstituteForCurlyBraces_error] at h
  by_cases hk : missingKeyErrors env (FindAllStringSubmatch content) = []
  · simp [hk] at h
  · simp [hk] at h
    rw [← h]

/-! ## Texts in which every dollar sign starts a placeholder -/

theorem render_nil (env : Env) (S : List Str) : render env S [] = [] := rfl

theorem render_cons (env : Env) (S : List Str) (p : Piece) (ps : List Piece) :
    render env S (p :: ps) = Piece.text env S p ++ render env S ps := by
  simp [render]

theorem everyDollarStartsPlaceholder_append (a b : Str)
    (h : everyDollarStartsPlaceholder (a ++ b) = true) :
    everyDollarStartsPlaceholder b = true := by
  induction a with
  | nil => exact h
  | cons c t ih =>
    simp only [List.cons_append, everyDollarStartsPlaceholder, Bool.and_eq_true] at h
    exact ih h.2

/-- A text in which every dollar sign starts a placeholder is a sequence of characters
other than the dollar sign and of placeholders. -/
theorem exists_pieces (env : Env) (n : Nat) (s : Str) (hn : s.length ≤ n)
    (h : everyDollarStartsPlaceholder s = true) :
    ∃ ps : List Piece, (∀ p ∈ ps, p.wf) ∧ s = render env [] ps := by
  induction n generalizing s with
  | zero =>
    have : s = [] := List.length_eq_zero.mp (Nat.le_zero.mp hn)
    exact ⟨[], by simp, by simp [this, render_nil]⟩
  | succ n ih =>
    cases s with
    | nil => exact ⟨[], by simp, by simp [render_nil]⟩
    | cons c t =>
      simp only [everyDollarStartsPlaceholder, Bool.and_eq_true, Bool.or_eq_true] at h
      obtain ⟨h1, h2⟩ := h
      by_cases hc : c = '$'
      · have hsome : (recbMatchAt (c :: t)).isSome = true := by
          rcases h1 with h1 | h1
          · simp [hc] at h1
          · exact h1
        obtain ⟨m, hm⟩ := Option.isSome_iff_exists.mp hsome
        obtain ⟨_, hname, r, hr⟩ := recbMatchAt_some hm
        have hr2 : everyDollarStartsPlaceholder r = true := by
          have : everyDollarStartsPlaceholder (placeholder m.group ++ r) = true := by
            rw [← hr]
            simp only [everyDollarStartsPlaceholder, Bool.and_eq_true, Bool.or_eq_true]
            exact ⟨h1, h2⟩
          exact everyDollarStartsPlaceholder_append _ _ this
        have hlen : r.length ≤ n := by
          have := congrArg List.length hr
          simp [placeholder_length] at this hn
          omega
        obtain ⟨ps, hwf, hps⟩ := ih r hlen hr2
        refine ⟨Piece.var m.group :: ps, ?_, ?_⟩
        · intro p hp
          rcases List.mem_cons.mp hp with rfl | hp
          · exact hname
          · exact hwf p hp
        · rw [render_cons, ← hps, hr]
          simp [Piece.text]
      · have hlen : t.length ≤ n := by simpa using hn
        obtain ⟨ps, hwf, hps⟩ := ih t hlen h2
        refine ⟨Piece.lit c :: ps, ?_, ?_⟩
        · intro p hp
          rcases List.mem_cons.mp hp with rfl | hp
          · exact hc
          · exact hwf p hp
        · rw [render_cons, ← hps]
          simp [Piece.text]

/-- The matches of a text given by its pieces: its placeholder pieces, in order. -/
theorem FindAllStringSubmatch_render (env : Env) (ps : List Piece) (hwf : ∀ p ∈ ps, p.wf) :
    FindAllStringSubmatch (render env [] ps) =
      ps.filterMap (fun p => match p with
        | .lit _ => none
        | .var w => some ⟨placeholder w, w⟩) := by
  induction ps with
  | nil => rfl
  | cons p ps ih =>
    have ih2 := ih (fun q hq => hwf q (List.mem_cons_of_mem _ hq))
    have hp := hwf p (List.mem_cons_self _ _)
    rw [render_cons]
    cases p with
    | lit c =>
      have hc : c ≠ '$' := hp
      simp only [Piece.text, List.singleton_append, List.filterMap_cons]
      rw [FindAllStringSubmatch_cons_of_none c _ (recbMatchAt_of_ne_dollar c _ hc), ih2]
    | var w =>
      have hw : isName w := hp
      simp only [Piece.text, List.not_mem_nil, if_false, List.filterMap_cons]
      rw [FindAllStringSubmatch_placeholder_append w _ hw, ih2]

theorem replaceFrom_append_of_no_dollar (o new x r : Str) (hx : '$' ∉ x) :
    replaceFrom ('$' :: o) new 0 (x ++ r) = x ++ replaceFrom ('$' :: o) new 0 r := by
  induction x with
  | nil => rfl
  | cons c t ih =>
    have hc : ¬ '$' = c := fun h => hx (h ▸ List.mem_cons_self _ _)
    have ht : '$' ∉ t := fun h => hx (List.mem_cons_of_mem _ h)
    have hp : ('$' :: o).isPrefixOf (c :: (t ++ r)) = false := by
      simp [List.isPrefixOf, hc]
    rw [List.cons_append, replaceFrom_zero_cons, hp, ih ht]
    simp

theorem placeholder_prefix_inj (w w2 r : Str) (hw : isName w) (hw2 : isName w2)
    (h : placeholder w <+: placeholder w2 ++ r) : w = w2 := by
  obtain ⟨k, hk⟩ := h
  have h1 := recbMatchAt_placeholder w k hw
  have h2 := recbMatchAt_placeholder w2 r hw2
  rw [hk, h2] at h1
  simp at h1
  exact h1.2.symm

theorem replaceFrom_other_placeholder (w w2 new r : Str) (hw : isName w) (hw2 : isName w2)
    (hne : w2 ≠ w) :
    replaceFrom (placeholder w) new 0 (placeholder w2 ++ r) =
      placeholder w2 ++ replaceFrom (placeholder w) new 0 r := by
  have hcons : placeholder w2 ++ r = '$' :: (('{' :: (w2 ++ ['}'])) ++ r) := by
    simp [placeholder]
  have hp : (placeholder w).isPrefixOf ('$' :: (('{' :: (w2 ++ ['}'])) ++ r)) = false := by
    rw [Bool.eq_false_iff]
    intro hp
    rw [List.isPrefixOf_iff_prefix, ← hcons] at hp
    exact hne (placeholder_prefix_inj w w2 r hw hw2 hp).symm
  have h3 : placeholder w = '$' :: ('{' :: (w ++ ['}'])) := rfl
  rw [hcons, replaceFrom_zero_cons, hp]
  simp only [Bool.false_eq_true, if_false]
  rw [h3, replaceFrom_append_of_no_dollar _ _ _ _ (dollar_not_mem_of_isName hw2)]
  simp [placeholder]

/-- One pass of the loop on a text given by its pieces: the placeholders of `w` that are
still there are replaced, everything else is copied. -/
theorem replaceFrom_render (env : Env) (S : List Str) (w : Str) (hw : isName w)
    (ps : List Piece) (hwf : ∀ p ∈ ps, p.wf)
    (hv : ∀ w2, Piece.var w2 ∈ ps → '$' ∉ Getenv env w2) :
    replaceFrom (placeholder w) (Getenv env w) 0 (render env S ps) =
      render env (w :: S) ps := by
  induction ps with
  | nil => rfl
  | cons p ps ih =>
    have ih2 := ih (fun q hq => hwf q (List.mem_cons_of_mem _ hq))
      (fun w2 h2 => hv w2 (List.mem_cons_of_mem _ h2))
    have hp := hwf p (List.mem_cons_self _ _)
    have h3 : placeholder w = '$' :: ('{' :: (w ++ ['}'])) := rfl
    rw [render_cons, render_cons]
    cases p with
    | lit c =>
      have hc : c ≠ '$' := hp
      have hc2 : '$' ∉ [c] := by simpa using hc.symm
      simp only [Piece.text]
      rw [h3, replaceFrom_append_of_no_dollar _ _ _ _ hc2, ← h3, ih2]
    | var w2 =>
      have hw2 : isName w2 := hp
      have hv2 := hv w2 (List.mem_cons_self _ _)
      simp only [Piece.text]
      by_cases hS : w2 ∈ S
      · have hS2 : w2 ∈ w :: S := List.mem_cons_of_mem _ hS
        rw [if_pos hS, if_pos hS2, h3, replaceFrom_append_of_no_dollar _ _ _ _ hv2, ← h3, ih2]
      · rw [if_neg hS]
        by_cases hww : w2 = w
        · subst hww
          rw [if_pos (List.mem_cons_self _ _),
            replaceFrom_prefix _ _ _ (placeholder_ne_nil w2), ih2]
        · have hS2 : w2 ∉ w :: S := by
            intro h
            rcases List.mem_cons.mp h with h | h
            · exact hww h
            · exact hS h
          rw [if_neg hS2, replaceFrom_other_placeholder w w2 _ _ hw hw2 hww, ih2]

/-- The whole loop on a text given by its pieces, when every variable is set. -/
theorem replaceEach_render (env : Env) (ps : List Piece) (hwf : ∀ p ∈ ps, p.wf)
    (hv : ∀ w2, Piece.var w2 ∈ ps → '$' ∉ Getenv env w2)
    (ms : List Submatch) (hms : ∀ m ∈ ms, m.whole = placeholder m.group ∧ isName m.group)
    (S : List Str) :
    ∃ S2 : List Str, (∀ m ∈ ms, m.group ∈ S2) ∧ (∀ w ∈ S, w ∈ S2) ∧
      replaceEach env (render env S ps) ms = render env S2 ps := by
  induction ms generalizing S with
  | nil => exact ⟨S, by simp, fun w hw => hw, rfl⟩
  | cons m ms ih =>
    obtain ⟨hm1, hm2⟩ := hms m (List.mem_cons_self _ _)
    obtain ⟨S2, h1, h2, h3⟩ := ih (fun x hx => hms x (List.mem_cons_of_mem _ hx))
      (m.group :: S)
    refine ⟨S2, ?_, fun w hw => h2 w (List.mem_cons_of_mem _ hw), ?_⟩
    · intro x hx
      rcases List.mem_cons.mp hx with rfl | hx
      · exact h2 _ (List.mem_cons_self _ _)
      · exact h1 x hx
    · have e : ReplaceAll (render env S ps) m.whole (Getenv env m.group)
          = render env (m.group :: S) ps := by
        unfold ReplaceAll
        rw [hm1, if_neg (placeholder_ne_nil _)]
        exact replaceFrom_render env S m.group hm2 ps hwf hv
      unfold replaceEach at h3 ⊢
      rw [List.foldl_cons, e]
      exact h3

theorem expandFrom_skip (env : Env) (l r : Str) :
    expandFrom env l.length (l ++ r) = expandFrom env 0 r := by
  induction l with
  | nil => rfl
  | cons a l ih => simpa [expandFrom] using ih

theorem expandFrom_zero_cons (env : Env) (c : Char) (t : Str) :
    expandFrom env 0 (c :: t) =
      match recbMatchAt (c :: t) with
      | some m => Getenv env m.group ++ expandFrom env (m.whole.length - 1) t
      | none => c :: expandFrom env 0 t := rfl

/-- Simultaneous substitution on a text given by its pieces replaces every placeholder
piece by the value of its variable. -/
theorem substituteSimultaneously_render (env : Env) (ps : List Piece)
    (hwf : ∀ p ∈ ps, p.wf) (S : List Str) (hS : ∀ w, Piece.var w ∈ ps → w ∈ S) :
    substituteSimultaneously env (render env [] ps) = render env S ps := by
  induction ps with
  | nil => rfl
  | cons p ps ih =>
    have ih2 := ih (fun q hq => hwf q (List.mem_cons_of_mem _ hq))
      (fun w h => hS w (List.mem_cons_of_mem _ h))
    have hp := hwf p (List.mem_cons_self _ _)
    unfold substituteSimultaneously at ih2 ⊢
    rw [render_cons, render_cons]
    cases p with
    | lit c =>
      have hc : c ≠ '$' := hp
      simp only [Piece.text, List.singleton_append]
      rw [expandFrom_zero_cons, recbMatchAt_of_ne_dollar c _ hc, ih2]
    | var w =>
      have hw : isName w := hp
      have hwS : w ∈ S := hS w (List.mem_cons_self _ _)
      simp only [Piece.text, List.not_mem_nil, if_false, if_pos hwS]
      have hm := recbMatchAt_placeholder w (render env [] ps) hw
      have hcons : placeholder w ++ render env [] ps
          = '$' :: (('{' :: (w ++ ['}'])) ++ render env [] ps) := by
        simp [placeholder]
      rw [hcons] at hm ⊢
      rw [expandFrom_zero_cons, hm]
      simp only
      have hl : (placeholder w).length - 1 = ('{' :: (w ++ ['}'])).length := by
        simp [placeholder]
      rw [hl, expandFrom_skip, ih2]

theorem mem_FindAllStringSubmatch_render (env : Env) (ps : List Piece)
    (hwf : ∀ p ∈ ps, p.wf) (w : Str) (hw : Piece.var w ∈ ps) :
    (⟨placeholder w, w⟩ : Submatch) ∈ FindAllStringSubmatch (render env [] ps) := by
  rw [FindAllStringSubmatch_render env ps hwf, List.mem_filterMap]
  exact ⟨Piece.var w, hw, rfl⟩

/-- The result of `EnvSubstituteForCurlyBraces` on a text in which every dollar sign
starts a placeholder, when every variable is set to a value without a dollar sign: the
pieces of the text with every placeholder piece replaced by its value. -/
theorem EnvSubstituteForCurlyBraces_pieces (env : Env) (content : Str)
    (hd : everyDollarStartsPlaceholder content = true)
    (hv : ∀ m ∈ FindAllStringSubmatch content,
      Getenv env m.group ≠ [] ∧ '$' ∉ Getenv env m.group) :
    ∃ (ps : List Piece) (S : List Str),
      (∀ p ∈ ps, p.wf) ∧ content = render env [] ps ∧
      (∀ w, Piece.var w ∈ ps → w ∈ S ∧ '$' ∉ Getenv env w) ∧
      EnvSubstituteForCurlyBraces env content = (render env S ps, none) := by
  obtain ⟨ps, hwf, hps⟩ := exists_pieces env content.length content (Nat.le_refl _) hd
  have hvp : ∀ w, Piece.var w ∈ ps → '$' ∉ Getenv env w := by
    intro w hw
    have hm := mem_FindAllStringSubmatch_render env ps hwf w hw
    rw [← hps] at hm
    exact (hv _ hm).2
  obtain ⟨S, h1, _, h3⟩ := replaceEach_render env ps hwf hvp
    (FindAllStringSubmatch content) (mem_FindAllStringSubmatch content) []
  refine ⟨ps, S, hwf, hps, ?_, ?_⟩
  · intro w hw
    have hm := mem_FindAllStringSubmatch_render env ps hwf w hw
    rw [← hps] at hm
    exact ⟨h1 _ hm, hvp w hw⟩
  · rw [EnvSubstituteForCurlyBraces_of_all_set env content (fun m hm => (hv m hm).1)]
    rw [← hps] at h3
    rw [h3]

theorem getEnvLoop_eq_some (key : Str) (l : List Environment) (k i : Nat) :
    getEnvLoop key k l = some i ↔
      ∃ j, i = k + j ∧ (∃ e, l[j]? = some e ∧ e.Name = key) ∧
        ∀ j2, j2 < j → ∀ e, l[j2]? = some e → e.Name ≠ key := by
  induction l generalizing k with
  | nil => simp [getEnvLoop]
  | cons a l ih =>
    unfold getEnvLoop
    by_cases ha : a.Name = key
    · rw [if_pos ha]
      constructor
      · intro h
        have hi : i = k := by simpa using h.symm
        exact ⟨0, by simp [hi], ⟨a, by simp, ha⟩, by intro j2 hj2; omega⟩
      · rintro ⟨j, hj, _, hmin⟩
        cases j with
        | zero => simp [hj]
        | succ j => exact absurd ha (hmin 0 (Nat.succ_pos _) a (by simp))
    · rw [if_neg ha, ih (k + 1)]
      constructor
      · rintro ⟨j, hj, ⟨e, he, hek⟩, hmin⟩
        refine ⟨j + 1, by omega, ⟨e, by simpa using he, hek⟩, ?_⟩
        intro j2 hj2 e2 he2
        cases j2 with
        | zero =>
          have : a = e2 := by simpa using he2
          rw [← this]
          exact ha
        | succ j2 => exact hmin j2 (by omega) e2 (by simpa using he2)
      · rintro ⟨j, hj, ⟨e, he, hek⟩, hmin⟩
        cases j with
        | zero =>
          have : a = e := by simpa using he
          exact absurd (this ▸ hek) ha
        | succ j =>
          refine ⟨j, by omega, ⟨e, by simpa using he, hek⟩, ?_⟩
          intro j2 hj2 e2 he2
          exact hmin (j2 + 1) (by omega) e2 (by simpa using he2)

theorem getEnvLoop_eq_none (key : Str) (l : List Environment) (k : Nat) :
    getEnvLoop key k l = none ↔ ∀ e ∈ l, e.Name ≠ key := by
  induction l generalizing k with
  | nil => simp [getEnvLoop]
  | cons a l ih =>
    unfold getEnvLoop
    by_cases ha : a.Name = key
    · simp [ha]
    · simp [ha, ih (k + 1)]

/-! ## Facts about the file system -/

theorem FileNode.withContent_kind (n : FileNode) (data : Str) :
    (n.withContent data).kind = n.kind := by
  cases n with
  | directory r w => rfl
  | file k c r w => cases k <;> rfl

theorem FileNode.withContent_writable (n : FileNode) (data : Str) :
    (n.withContent data).writable = n.writable := by
  cases n <;> rfl

theorem FileNode.withContent_readable (n : FileNode) (data : Str) :
    (n.withContent data).readable = n.readable := by
  cases n <;> rfl

theorem FileNode.content_of_directory (n : FileNode) (h : n.kind = .directory) :
    n.content = [] := by
  cases n with
  | directory r w => rfl
  | file k c r w => cases k <;> simp [FileNode.kind] at h

theorem lookupFile_setContent_self (fs : FileSystem) (path data : Str) :
    lookupFile (setContent fs path data) path =
      (lookupFile fs path).map (fun n => n.withContent data) := by
  induction fs with
  | nil => rfl
  | cons e fs ih =>
    obtain ⟨p, n⟩ := e
    by_cases hp : p = path
    · simp [setContent, lookupFile, hp]
    · simp [setContent, lookupFile, hp, ih]

theorem lookupFile_setContent_other (fs : FileSystem) (path data q : Str) (hq : q ≠ path) :
    lookupFile (setContent fs path data) q = lookupFile fs q := by
  induction fs with
  | nil => rfl
  | cons e fs ih =>
    obtain ⟨p, n⟩ := e
    by_cases hp : p = path
    · have hpq : ¬ p = q := fun h => hq (h ▸ hp)
      have hpq2 : ¬ path = q := fun h => hq h.symm
      simp [setContent, lookupFile, hp, hpq2, ih]
    · by_cases hpq : p = q
      · subst hpq
        simp [setContent, lookupFile, hp]
      · simp [setContent, lookupFile, hp, hpq, ih]

theorem FileNode.withContent_idem (n : FileNode) (data : Str) :
    (n.withContent data).withContent data = n.withContent data := by
  cases n <;> rfl

theorem setContent_idem (fs : FileSystem) (path data : Str) :
    setContent (setContent fs path data) path data = setContent fs path data := by
  induction fs with
  | nil => rfl
  | cons e fs ih =>
    obtain ⟨p, n⟩ := e
    by_cases hp : p = path
    · simp [setContent, hp, ih, FileNode.withContent_idem]
    · simp [setContent, hp, ih]

theorem WriteFile_of_writable (fs : FileSystem) (file data : Str) (n : FileNode)
    (hl : lookupFile fs file = some n) (hk : n.kind ≠ .directory)
    (hw : n.writable = true) :
    WriteFile fs file data = (setContent fs file data, none) := by
  simp [WriteFile, hl, hk, hw]

theorem WriteFile_of_not_writable (fs : FileSystem) (file data : Str) (n : FileNode)
    (hl : lookupFile fs file = some n) (hw : n.writable = false) :
    WriteFile fs file data = (fs, some (.pathError "open".toList file)) := by
  by_cases hk : n.kind = .directory
  · simp [WriteFile, hl, hk]
  · simp [WriteFile, hl, hk, hw]

theorem ReadFile_ok_iff (fs : FileSystem) (file content : Str) :
    ReadFile fs file = .ok content ↔
      ∃ n, lookupFile fs file = some n ∧ n.readable = true ∧ n.kind ≠ .directory ∧
        n.content = content := by
  unfold ReadFile
  cases hl : lookupFile fs file with
  | none => simp
  | some n =>
    by_cases hr : n.readable = true
    · by_cases hk : n.kind = .directory
      · simp [hr, hk]
      · simp [hr, hk]
    · simp [hr]

/-! ## `EnvSubstituteInFile` in closed form -/

/-- What `substituteAndWrite` does to an existing file that is not a directory, by
cases. -/
theorem substituteAndWrite_cases (env : Env) (fs : FileSystem) (file content : Str)
    (n : FileNode) (hl : lookupFile fs file = some n) (hk : n.kind ≠ .directory) :
    (∃ me, (EnvSubstituteForCurlyBraces env content).2 = some me ∧
      substituteAndWrite env fs file content = (fs, some (.missingKeys me))) ∨
    ((EnvSubstituteForCurlyBraces env content).2 = none ∧ n.writable = false ∧
      substituteAndWrite env fs file content = (fs, some (.pathError "open".toList file))) ∨
    ((EnvSubstituteForCurlyBraces env content).2 = none ∧ n.writable = true ∧
      substituteAndWrite env fs file content =
        (setContent fs file (EnvSubstituteForCurlyBraces env content).1, none)) := by
  unfold substituteAndWrite
  cases hres : EnvSubstituteForCurlyBraces env content with
  | mk s err =>
    cases err with
    | some me => exact Or.inl ⟨me, rfl, rfl⟩
    | none =>
      by_cases hw : n.writable = true
      · exact Or.inr (Or.inr ⟨rfl, hw, WriteFile_of_writable fs file s n hl hk hw⟩)
      · have hw2 : n.writable = false := by simpa using hw
        exact Or.inr (Or.inl ⟨rfl, hw2, WriteFile_of_not_writable fs file s n hl hw2⟩)

/-- A pass that succeeded leaves a file system on which the same pass changes nothing. -/
theorem substituteAndWrite_again (env : Env) (fs fs1 : FileSystem) (file content : Str)
    (n : FileNode) (hl : lookupFile fs file = some n) (hk : n.kind ≠ .directory)
    (h : substituteAndWrite env fs file content = (fs1, none)) :
    (∃ n1, lookupFile fs1 file = some n1 ∧ n1.kind ≠ .directory) ∧
      substituteAndWrite env fs1 file content = (fs1, none) := by
  rcases substituteAndWrite_cases env fs file content n hl hk with
    ⟨me, _, h1⟩ | ⟨_, _, h1⟩ | ⟨hs, hw, h1⟩
  · rw [h1] at h; simp at h
  · rw [h1] at h; simp at h
  · rw [h1] at h
    have hfs : fs1 = setContent fs file (EnvSubstituteForCurlyBraces env content).1 := by
      simpa using h.symm
    have hl1 : lookupFile fs1 file
        = some (n.withContent (EnvSubstituteForCurlyBraces env content).1) := by
      rw [hfs, lookupFile_setContent_self, hl]
      rfl
    have hk1 : (n.withContent (EnvSubstituteForCurlyBraces env content).1).kind
        ≠ .directory := by
      rw [FileNode.withContent_kind]
      exact hk
    refine ⟨⟨_, hl1, hk1⟩, ?_⟩
    rcases substituteAndWrite_cases env fs1 file content _ hl1 hk1 with
      ⟨me, hme, _⟩ | ⟨_, hw1, _⟩ | ⟨_, _, h2⟩
    · rw [hs] at hme; simp at hme
    · rw [FileNode.withContent_writable, hw] at hw1
      simp at hw1
    · rw [h2, hfs, setContent_idem]

theorem substituteForExtensions_eq (env : Env) (file content : Str) (exts : List Str)
    (fs : FileSystem) (n : FileNode) (hl : lookupFile fs file = some n)
    (hk : n.kind ≠ .directory) :
    substituteForExtensions env file content exts fs =
      if exts.any (fun extension => HasSuffix file extension) then
        substituteAndWrite env fs file content
      else (fs, none) := by
  induction exts generalizing fs n with
  | nil => rfl
  | cons x rest ih =>
    unfold substituteForExtensions
    by_cases hx : HasSuffix file x = true
    · simp only [hx, if_true, List.any_cons, Bool.true_or]
      cases hres : substituteAndWrite env fs file content with
      | mk fs1 err =>
        cases err with
        | some e => rfl
        | none =>
          obtain ⟨⟨n1, hl1, hk1⟩, hagain⟩ :=
            substituteAndWrite_again env fs fs1 file content n hl hk hres
          simp only
          rw [ih fs1 n1 hl1 hk1, hagain]
          simp
    · have hx2 : HasSuffix file x = false := by simpa using hx
      simp only [hx2, List.any_cons, Bool.false_or]
      exact ih fs n hl hk

/-- `EnvSubstituteInFile` in closed form: a file that cannot be read gives the error of
reading it; a file that is selected is substituted and written once; a file that is not
selected is left alone. -/
theorem EnvSubstituteInFile_eq (env : Env) (fs : FileSystem) (file : Str)
    (fileExtensions : Option (List Str)) :
    EnvSubstituteInFile env fs file fileExtensions =
      match ReadFile fs file with
      | .error err => (fs, some err)
      | .ok content =>
        if selected file fileExtensions then substituteAndWrite env fs file content
        else (fs, none) := by
  unfold EnvSubstituteInFile
  cases hr : ReadFile fs file with
  | error err => rfl
  | ok content =>
    obtain ⟨n, hl, _, hk, _⟩ := (ReadFile_ok_iff fs file content).mp hr
    cases fileExtensions with
    | none => simp [selected]
    | some exts =>
      simp only [selected]
      exact substituteForExtensions_eq env file content exts fs n hl hk

/-- `EnvSubstituteInFile` does what `fileOutcome` reads off the entry of the file. -/
theorem EnvSubstituteInFile_eq_outcome (env : Env) (fs : FileSystem) (file : Str)
    (fileExtensions : Option (List Str)) :
    EnvSubstituteInFile env fs file fileExtensions =
      (applyOutcome fs file (fileOutcome env file fileExtensions (lookupFile fs file)).1,
        (fileOutcome env file fileExtensions (lookupFile fs file)).2) := by
  rw [EnvSubstituteInFile_eq]
  unfold ReadFile fileOutcome
  cases hl : lookupFile fs file with
  | none => rfl
  | some n =>
    by_cases hr : n.readable = true
    · simp only [hr, if_true]
      by_cases hk : n.kind = .directory
      · simp [hk, applyOutcome]
      · simp only [hk, if_false]
        by_cases hsel : selected file fileExtensions = true
        · simp only [hsel, if_true]
          rcases substituteAndWrite_cases env fs file n.content n hl hk with
            ⟨me, hme, h1⟩ | ⟨hs, hw, h1⟩ | ⟨hs, hw, h1⟩
          · rw [h1]
            cases hres : EnvSubstituteForCurlyBraces env n.content with
            | mk s err =>
              rw [hres] at hme
              simp only at hme
              subst hme
              rfl
          · rw [h1]
            cases hres : EnvSubstituteForCurlyBraces env n.content with
            | mk s err =>
              rw [hres] at hs
              simp only at hs
              subst hs
              simp [hw, applyOutcome]
          · rw [h1]
            cases hres : EnvSubstituteForCurlyBraces env n.content with
            | mk s err =>
              rw [hres] at hs
              simp only at hs
              subst hs
              simp [hw, applyOutcome]
        · have hsel2 : selected file fileExtensions = false := by simpa using hsel
          simp [hsel2, applyOutcome]
    · have hr2 : n.readable = false := by simpa using hr
      simp [hr2, applyOutcome]

/-- An outcome with an error writes nothing. -/
theorem fileOutcome_error (env : Env) (file : Str) (fileExtensions : Option (List Str))
    (node : Option FileNode)
    (h : (fileOutcome env file fileExtensions node).2 ≠ none) :
    (fileOutcome env file fileExtensions node).1 = none := by
  unfold fileOutcome at h ⊢
  cases node with
  | none => rfl
  | some n =>
    simp only at h ⊢
    by_cases hr : n.readable = true
    · by_cases hk : n.kind = .directory
      · simp [hr, hk]
      · by_cases hsel : selected file fileExtensions = true
        · cases hres : EnvSubstituteForCurlyBraces env n.content with
          | mk s err =>
            cases err with
            | some me => simp [hr, hk, hsel]
            | none =>
              by_cases hw : n.writable = true
              · simp [hr, hk, hsel, hres, hw] at h
              · simp [hr, hk, hsel, hw]
        · simp [hr, hk, hsel]
    · simp [hr]

/-- A failing `EnvSubstituteInFile` changes nothing. -/
theorem EnvSubstituteInFile_fail (env : Env) (fs : FileSystem) (file : Str)
    (fileExtensions : Option (List Str))
    (h : (EnvSubstituteInFile env fs file fileExtensions).2 ≠ none) :
    (EnvSubstituteInFile env fs file fileExtensions).1 = fs := by
  rw [EnvSubstituteInFile_eq_outcome] at h ⊢
  simp only at h ⊢
  rw [fileOutcome_error env file fileExtensions _ h]
  rfl

/-- `EnvSubstituteInFile` changes no entry but the one of its file. -/
theorem EnvSubstituteInFile_frame (env : Env) (fs : FileSystem) (file : Str)
    (fileExtensions : Option (List Str)) (q : Str) (hq : q ≠ file) :
    lookupFile (EnvSubstituteInFile env fs file fileExtensions).1 q = lookupFile fs q := by
  rw [EnvSubstituteInFile_eq_outcome]
  simp only
  cases (fileOutcome env file fileExtensions (lookupFile fs file)).1 with
  | none => rfl
  | some s => exact lookupFile_setContent_other fs file s q hq

/-- The error of `EnvSubstituteInFile` and the entry of its file afterwards depend on
the entry of the file only. -/
theorem EnvSubstituteInFile_local (env : Env) (fs1 fs2 : FileSystem) (file : Str)
    (fileExtensions : Option (List Str))
    (h : lookupFile fs1 file = lookupFile fs2 file) :
    (EnvSubstituteInFile env fs1 file fileExtensions).2 =
        (EnvSubstituteInFile env fs2 file fileExtensions).2 ∧
    lookupFile (EnvSubstituteInFile env fs1 file fileExtensions).1 file =
        lookupFile (EnvSubstituteInFile env fs2 file fileExtensions).1 file := by
  rw [EnvSubstituteInFile_eq_outcome, EnvSubstituteInFile_eq_outcome, h]
  refine ⟨rfl, ?_⟩
  simp only
  cases (fileOutcome env file fileExtensions (lookupFile fs2 file)).1 with
  | none => exact h
  | some s =>
    simp only [applyOutcome]
    rw [lookupFile_setContent_self, lookupFile_setContent_self, h]

theorem EnvSubstituteForCurlyBraces_error_of_missing (env : Env) (content : Str)
    (m : Submatch) (hm : m ∈ FindAllStringSubmatch content)
    (hu : unsetOrEmpty env m.group) :
    ∃ me, (EnvSubstituteForCurlyBraces env content).2 = some me := by
  rw [EnvSubstituteForCurlyBraces_error]
  by_cases hk : missingKeyErrors env (FindAllStringSubmatch content) = []
  · exact absurd ((Getenv_eq_nil_iff env _).mpr hu)
      ((missingKeyErrors_eq_nil_iff env _).mp hk m hm)
  · exact ⟨⟨missingKeyErrors env (FindAllStringSubmatch content)⟩, by simp [hk]⟩

theorem selected_some_iff (file : Str) (exts : List Str) :
    selected file (some exts) = true ↔ ∃ e ∈ exts, HasSuffix file e = true := by
  simp [selected]

/-! ## The walk -/

theorem Walk_cons_ok {σ : Type} (walkFn : WalkEntry → σ → σ × Option GoError)
    (entry : WalkEntry) (rest : List WalkEntry) (s s1 : σ)
    (h : walkFn entry s = (s1, none)) :
    Walk walkFn (entry :: rest) s = Walk walkFn rest s1 := by
  simp [Walk, h]

theorem Walk_cons_err {σ : Type} (walkFn : WalkEntry → σ → σ × Option GoError)
    (entry : WalkEntry) (rest : List WalkEntry) (s s1 : σ) (err : GoError)
    (h : walkFn entry s = (s1, some err)) :
    Walk walkFn (entry :: rest) s = (s1, some err) := by
  simp [Walk, h]

theorem Stat_of_lookup (fs : FileSystem) (path : Str) (n : FileNode)
    (h : lookupFile fs path = some n) : Stat fs path = .ok n.kind := by
  simp [Stat, h]

/-- The walk function on an entry without error whose path names `n`. -/
theorem substituteWalkFn_eq (env : Env) (fileExtensions : Option (List Str))
    (entry : WalkEntry) (fs : FileSystem) (n : FileNode) (he : entry.err = none)
    (hl : lookupFile fs entry.path = some n) :
    substituteWalkFn env fileExtensions entry fs =
      if n.kind = .regular then EnvSubstituteInFile env fs entry.path fileExtensions
      else (fs, none) := by
  simp [substituteWalkFn, he, Stat_of_lookup fs entry.path n hl]

/-- The walk up to the first file whose substitution fails. The walk starts on `fs1`,
which agrees with `fs` on the entries still to be visited. -/
theorem EnvSubstituteInFolder_until_failure (env : Env) (fs : FileSystem)
    (fileExtensions : Option (List Str)) (v : WalkEntry) (post : List WalkEntry)
    (err : GoError) (n : FileNode)
    (hv : v.err = none) (hvl : lookupFile fs v.path = some n) (hvk : n.kind = .regular)
    (hfail : (EnvSubstituteInFile env fs v.path fileExtensions).2 = some err)
    (pre : List WalkEntry) (fs1 : FileSystem)
    (hnodup : ((pre ++ [v]).map (fun u => u.path)).Nodup)
    (hpre : ∀ u ∈ pre, u.err = none ∧ ∃ k, lookupFile fs u.path = some k ∧
      (k.kind = .regular → (EnvSubstituteInFile env fs u.path fileExtensions).2 = none))
    (hagree : ∀ u ∈ pre ++ [v], lookupFile fs1 u.path = lookupFile fs u.path) :
    ∃ fs2, EnvSubstituteInFolder env fs1 (pre ++ v :: post) fileExtensions
        = (fs2, some err) ∧
      (∀ u ∈ pre, ∀ k, lookupFile fs u.path = some k → k.kind = .regular →
        lookupFile fs2 u.path
          = lookupFile (EnvSubstituteInFile env fs u.path fileExtensions).1 u.path) ∧
      (∀ q, (∀ u ∈ pre, u.path ≠ q) → lookupFile fs2 q = lookupFile fs1 q) := by
  induction pre generalizing fs1 with
  | nil =>
    have hl1 : lookupFile fs1 v.path = some n := by
      rw [hagree v (by simp), hvl]
    have hloc := EnvSubstituteInFile_local env fs1 fs v.path fileExtensions
      (by rw [hl1, hvl])
    have herr : (EnvSubstituteInFile env fs1 v.path fileExtensions).2 = some err := by
      rw [hloc.1, hfail]
    have hsame := EnvSubstituteInFile_fail env fs1 v.path fileExtensions (by simp [herr])
    refine ⟨fs1, ?_, by simp, fun q _ => rfl⟩
    unfold EnvSubstituteInFolder
    rw [List.nil_append]
    apply Walk_cons_err
    rw [substituteWalkFn_eq env fileExtensions v fs1 n hv hl1, if_pos hvk]
    exact Prod.ext hsame herr
  | cons u pre ih =>
    obtain ⟨hu, k, hk, hkok⟩ := hpre u (List.mem_cons_self _ _)
    have hl1 : lookupFile fs1 u.path = some k := by
      rw [hagree u (by simp), hk]
    have hnodup2 : ((pre ++ [v]).map (fun w => w.path)).Nodup := by
      simp only [List.cons_append, List.map_cons, List.nodup_cons] at hnodup
      exact hnodup.2
    have hnotin : ∀ w ∈ pre ++ [v], w.path ≠ u.path := by
      intro w hw heq
      simp only [List.cons_append, List.map_cons, List.nodup_cons] at hnodup
      exact hnodup.1 (heq ▸ List.mem_map_of_mem (fun w => w.path) hw)
    by_cases hreg : k.kind = .regular
    · have hloc := EnvSubstituteInFile_local env fs1 fs u.path fileExtensions
        (by rw [hl1, hk])
      have herr : (EnvSubstituteInFile env fs1 u.path fileExtensions).2 = none := by
        rw [hloc.1, hkok hreg]
      obtain ⟨fs2, h1, h2, h3⟩ := ih
        (EnvSubstituteInFile env fs1 u.path fileExtensions).1 hnodup2
        (fun w hw => hpre w (List.mem_cons_of_mem _ hw))
        (fun w hw => by
          rw [EnvSubstituteInFile_frame env fs1 u.path fileExtensions w.path (hnotin w hw)]
          exact hagree w (List.mem_cons_of_mem _ hw))
      refine ⟨fs2, ?_, ?_, ?_⟩
      · unfold EnvSubstituteInFolder at h1 ⊢
        rw [List.cons_append, Walk_cons_ok _ u _ fs1
          (EnvSubstituteInFile env fs1 u.path fileExtensions).1 ?_]
        · exact h1
        · rw [substituteWalkFn_eq env fileExtensions u fs1 k hu hl1, if_pos hreg]
          exact Prod.ext rfl herr
      · intro w hw kw hkw hkwreg
        rcases List.mem_cons.mp hw with rfl | hw
        · have hnp : ∀ x ∈ pre, x.path ≠ w.path :=
            fun x hx => hnotin x (List.mem_append_left _ hx)
          rw [h3 w.path hnp, hloc.2]
        · exact h2 w hw kw hkw hkwreg
      · intro q hq
        have hq1 : q ≠ u.path := fun h => hq u (List.mem_cons_self _ _) h.symm
        rw [h3 q (fun x hx => hq x (List.mem_cons_of_mem _ hx)),
          EnvSubstituteInFile_frame env fs1 u.path fileExtensions q hq1]
    · obtain ⟨fs2, h1, h2, h3⟩ := ih fs1 hnodup2
        (fun w hw => hpre w (List.mem_cons_of_mem _ hw))
        (fun w hw => hagree w (List.mem_cons_of_mem _ hw))
      refine ⟨fs2, ?_, ?_, ?_⟩
      · unfold EnvSubstituteInFolder at h1 ⊢
        rw [List.cons_append, Walk_cons_ok _ u _ fs1 fs1 ?_]
        · exact h1
        · rw [substituteWalkFn_eq env fileExtensions u fs1 k hu hl1, if_neg hreg]
      · intro w hw kw hkw hkwreg
        rcases List.mem_cons.mp hw with rfl | hw
        · rw [hk] at hkw
          cases hkw
          exact absurd hkwreg hreg
        · exact h2 w hw kw hkw hkwreg
      · intro q hq
        exact h3 q (fun x hx => hq x (List.mem_cons_of_mem _ hx))

/-! ## The decoder of `ExtractAPIEndpointConfig` -/

theorem foldl_decodeMember_of_no_match (ms : List (Str × Json))
    (st : APIEndpointConfig × Option GoError)
    (h : ∀ m ∈ ms, matchesEndpointConfig m.1 = false) :
    ms.foldl decodeMember st = st := by
  induction ms generalizing st with
  | nil => rfl
  | cons m ms ih =>
    have hm : decodeMember st m = st := by
      simp [decodeMember, h m (List.mem_cons_self _ _)]
    rw [List.foldl_cons, hm]
    exact ih st (fun x hx => h x (List.mem_cons_of_mem _ hx))

theorem foldl_decodeMember_error_of_strings (ms : List (Str × Json))
    (st : APIEndpointConfig × Option GoError)
    (h : ∀ m ∈ ms, matchesEndpointConfig m.1 = true → ∃ s, m.2 = .string s) :
    (ms.foldl decodeMember st).2 = st.2 := by
  induction ms generalizing st with
  | nil => rfl
  | cons m ms ih =>
    have hm : (decodeMember st m).2 = st.2 := by
      by_cases hk : matchesEndpointConfig m.1 = true
      · obtain ⟨s, hs⟩ := h m (List.mem_cons_self _ _) hk
        simp [decodeMember, hk, hs]
      · simp [decodeMember, hk]
    rw [List.foldl_cons, ih _ (fun x hx => h x (List.mem_cons_of_mem _ hx)), hm]

/-! ## The walk of `GetFileLocationFromPattern` -/

theorem Walk_append_of_unchanged {σ : Type} (walkFn : WalkEntry → σ → σ × Option GoError)
    (pre rest : List WalkEntry) (s : σ) (h : ∀ u ∈ pre, walkFn u s = (s, none)) :
    Walk walkFn (pre ++ rest) s = Walk walkFn rest s := by
  induction pre with
  | nil => rfl
  | cons u pre ih =>
    rw [List.cons_append, Walk_cons_ok walkFn u _ s s (h u (List.mem_cons_self _ _))]
    exact ih (fun x hx => h x (List.mem_cons_of_mem _ hx))

theorem patternWalkFn_of_no_match (pathMatch : Str → Str → Except GoError Bool)
    (pathBase : Str → Str) (pathAbs : Str → Except GoError Str) (pattern : Str)
    (u : WalkEntry) (found : Str) (he : u.err = none)
    (hm : u.info ≠ .directory → pathMatch pattern (pathBase u.path) = .ok false) :
    patternWalkFn pathMatch pathBase pathAbs pattern u found = (found, none) := by
  unfold patternWalkFn
  rw [he]
  by_cases hd : u.info = .directory
  · simp [hd]
  · simp [hd, hm hd]

/-! ## The claims -/

/-- C1: a text that holds no match of `recb` is returned unchanged, with the nil error,
in every environment. -/
theorem C1_no_placeholder_unchanged (env : Env) (content : Str)
    (h : FindAllStringSubmatch content = []) :
    EnvSubstituteForCurlyBraces env content = (content, none) := by
  unfold EnvSubstituteForCurlyBraces
  rw [h]
  rfl

/-- C1 at the empty text, and at a text with only bare dollar tokens whose variables
are not set. -/
theorem C1_no_placeholder_unchanged_witness :
    (FindAllStringSubmatch [] = [] ∧
      EnvSubstituteForCurlyBraces emptyEnv [] = ([], none)) ∧
    (FindAllStringSubmatch "$VAR and $OTHER".toList = [] ∧
      EnvSubstituteForCurlyBraces emptyEnv "$VAR and $OTHER".toList
        = ("$VAR and $OTHER".toList, none)) :=
  ⟨⟨by decide, C1_no_placeholder_unchanged emptyEnv [] (by decide)⟩,
   ⟨by decide, C1_no_placeholder_unchanged emptyEnv _ (by decide)⟩⟩

/-- C3: when `EnvSubstituteForCurlyBraces` fails, the aggregate error holds a missing-key
error for every match whose variable is unset or empty, and so for every placeholder that
occurs anywhere in the text with such a variable. -/
theorem C3_all_missing_keys_reported (env : Env) (content : Str) (me : MultiError)
    (h : (EnvSubstituteForCurlyBraces env content).2 = some me) :
    (∀ m ∈ FindAllStringSubmatch content, unsetOrEmpty env m.group →
      (⟨m.whole⟩ : ErrRequiredEnvKeyMissing) ∈ me.Errors) ∧
    (∀ pre post w : Str, isName w → content = pre ++ placeholder w ++ post →
      unsetOrEmpty env w → (⟨placeholder w⟩ : ErrRequiredEnvKeyMissing) ∈ me.Errors) := by
  rw [EnvSubstituteForCurlyBraces_error] at h
  have hme : me.Errors = missingKeyErrors env (FindAllStringSubmatch content) := by
    by_cases hk : missingKeyErrors env (FindAllStringSubmatch content) = []
    · simp [hk] at h
    · simp [hk] at h
      rw [← h]
  have key : ∀ m ∈ FindAllStringSubmatch content, unsetOrEmpty env m.group →
      (⟨m.whole⟩ : ErrRequiredEnvKeyMissing) ∈ me.Errors := by
    intro m hm hu
    rw [hme]
    unfold missingKeyErrors
    refine List.mem_map.mpr ⟨m, ?_, rfl⟩
    rw [List.mem_filter]
    exact ⟨hm, by simpa using (Getenv_eq_nil_iff env m.group).mpr hu⟩
  refine ⟨key, ?_⟩
  intro pre post w hw hc hu
  have hmem : (⟨placeholder w, w⟩ : Submatch) ∈ FindAllStringSubmatch content := by
    rw [hc, FindAllStringSubmatch_occurrence pre post w hw]
    simp
  exact key _ hmem hu

/-- C3 on a text with two placeholders whose variables are both unset: the error names
both. -/
theorem C3_all_missing_keys_reported_witness :
    (EnvSubstituteForCurlyBraces emptyEnv "${FOO} and ${BAR}".toList).2
      = some ⟨[⟨"${FOO}".toList⟩, ⟨"${BAR}".toList⟩]⟩ ∧
    (⟨"${FOO}".toList⟩ : ErrRequiredEnvKeyMissing)
      ∈ [(⟨"${FOO}".toList⟩ : ErrRequiredEnvKeyMissing), ⟨"${BAR}".toList⟩] ∧
    (⟨"${BAR}".toList⟩ : ErrRequiredEnvKeyMissing)
      ∈ [(⟨"${FOO}".toList⟩ : ErrRequiredEnvKeyMissing), ⟨"${BAR}".toList⟩] :=
  have h : (EnvSubstituteForCurlyBraces emptyEnv "${FOO} and ${BAR}".toList).2
      = some ⟨[⟨"${FOO}".toList⟩, ⟨"${BAR}".toList⟩]⟩ := by decide
  ⟨h,
   (C3_all_missing_keys_reported emptyEnv _ _ h).2 [] " and ${BAR}".toList "FOO".toList
     (by decide) (by decide) (by decide),
   (C3_all_missing_keys_reported emptyEnv _ _ h).2 "${FOO} and ".toList [] "BAR".toList
     (by decide) (by decide) (by decide)⟩

/-- C4: `EnvSubstituteForCurlyBraces` returns a non-nil error exactly when some match
names a variable that is unset or empty, and with an error the returned string is empty. -/
theorem C4_error_iff_missing (env : Env) (content : Str) :
    ((EnvSubstituteForCurlyBraces env content).2 ≠ none ↔
      ∃ m ∈ FindAllStringSubmatch content, unsetOrEmpty env m.group) ∧
    ((EnvSubstituteForCurlyBraces env content).2 ≠ none →
      (EnvSubstituteForCurlyBraces env content).1 = []) := by
  refine ⟨?_, EnvSubstituteForCurlyBraces_fst_of_error env content⟩
  rw [EnvSubstituteForCurlyBraces_error]
  by_cases hk : missingKeyErrors env (FindAllStringSubmatch content) = []
  · simp only [hk, if_true, ne_eq, not_true_eq_false, false_iff]
    rintro ⟨m, hm, hu⟩
    exact (missingKeyErrors_eq_nil_iff env _).mp hk m hm ((Getenv_eq_nil_iff env _).mpr hu)
  · simp only [hk, if_false, ne_eq, reduceCtorEq, not_false_eq_true, true_iff]
    rw [missingKeyErrors_eq_nil_iff] at hk
    push_neg at hk
    obtain ⟨m, hm, hg⟩ := hk
    exact ⟨m, hm, (Getenv_eq_nil_iff env _).mp hg⟩

/-- C4 on a text with one resolvable and one unresolvable placeholder: an error and the
empty string, nothing of the resolvable part. -/
theorem C4_error_iff_missing_witness :
    EnvSubstituteForCurlyBraces (singleEnv "HOST".toList "api.example.com".toList)
        "url: ${HOST}:${PORT}".toList
      = ([], some ⟨[⟨"${PORT}".toList⟩]⟩) ∧
    (EnvSubstituteForCurlyBraces (singleEnv "HOST".toList "api.example.com".toList)
        "url: ${HOST}:${PORT}".toList).1 = [] :=
  ⟨by decide,
   (C4_error_iff_missing (singleEnv "HOST".toList "api.example.com".toList)
      "url: ${HOST}:${PORT}".toList).2 (by decide)⟩

/-- C2 fails as stated: every pass of the loop runs `ReplaceAll` over the text the
previous pass produced. With two occurrences of the placeholder of `FOO`, a value that
holds the placeholder itself is substituted twice, and a value without any dollar sign can
complete a placeholder with a dollar sign of the text, which the second pass replaces. -/
theorem C2_counterexample :
    (FindAllStringSubmatch "${FOO}${FOO}".toList ≠ [] ∧
      (∀ m ∈ FindAllStringSubmatch "${FOO}${FOO}".toList, m.group = "FOO".toList) ∧
      singleEnv "FOO".toList "a${FOO}".toList "FOO".toList = some "a${FOO}".toList ∧
      ReplaceAll "${FOO}${FOO}".toList "${FOO}".toList "a${FOO}".toList
        = "a${FOO}a${FOO}".toList ∧
      EnvSubstituteForCurlyBraces (singleEnv "FOO".toList "a${FOO}".toList)
          "${FOO}${FOO}".toList
        = ("aa${FOO}aa${FOO}".toList, none) ∧
      EnvSubstituteForCurlyBraces (singleEnv "FOO".toList "a${FOO}".toList)
          "${FOO}${FOO}".toList
        ≠ (ReplaceAll "${FOO}${FOO}".toList "${FOO}".toList "a${FOO}".toList, none)) ∧
    (FindAllStringSubmatch "$${FOO}${FOO}".toList ≠ [] ∧
      (∀ m ∈ FindAllStringSubmatch "$${FOO}${FOO}".toList, m.group = "FOO".toList) ∧
      singleEnv "FOO".toList "{FOO}".toList "FOO".toList = some "{FOO}".toList ∧
      ReplaceAll "$${FOO}${FOO}".toList "${FOO}".toList "{FOO}".toList
        = "${FOO}{FOO}".toList ∧
      EnvSubstituteForCurlyBraces (singleEnv "FOO".toList "{FOO}".toList)
          "$${FOO}${FOO}".toList
        = ("{FOO}{FOO}".toList, none) ∧
      EnvSubstituteForCurlyBraces (singleEnv "FOO".toList "{FOO}".toList)
          "$${FOO}${FOO}".toList
        ≠ (ReplaceAll "$${FOO}${FOO}".toList "${FOO}".toList "{FOO}".toList, none)) := by
  decide

/-- C2, amended: for a text whose matches all name the variable `foo` (at least one
match), and a non-empty value `V` of `foo`, the error is nil and the result is the text
after `ReplaceAll` of the placeholder by `V` has been applied as many times in succession
as the text has matches. That is the text with every occurrence of the placeholder
replaced by `V` whenever the placeholder occurs once, or does not occur in the text so
replaced. -/
theorem C2_single_variable (env : Env) (content foo V : Str)
    (hne : FindAllStringSubmatch content ≠ [])
    (hall : ∀ m ∈ FindAllStringSubmatch content, m.group = foo)
    (hV : env foo = some V) (hVne : V ≠ []) :
    (EnvSubstituteForCurlyBraces env content).2 = none ∧
    (EnvSubstituteForCurlyBraces env content).1 =
      Nat.iterate (fun t => ReplaceAll t (placeholder foo) V)
        (FindAllStringSubmatch content).length content ∧
    (((FindAllStringSubmatch content).length = 1 ∨
        ¬ placeholder foo <:+: ReplaceAll content (placeholder foo) V) →
      EnvSubstituteForCurlyBraces env content
        = (ReplaceAll content (placeholder foo) V, none)) := by
  have hg : Getenv env foo = V := Getenv_of_some hV
  have hset : ∀ m ∈ FindAllStringSubmatch content, Getenv env m.group ≠ [] := by
    intro m hm
    rw [hall m hm, hg]
    exact hVne
  have hwhole : ∀ m ∈ FindAllStringSubmatch content, m.whole = placeholder foo := by
    intro m hm
    rw [(mem_FindAllStringSubmatch content m hm).1, hall m hm]
  have hres := EnvSubstituteForCurlyBraces_of_all_set env content hset
  refine ⟨by rw [hres], ?_, ?_⟩
  · rw [hres]
    exact replaceEach_eq_iterate env (placeholder foo) V _ content
      (fun m hm => ⟨hwhole m hm, by rw [hall m hm, hg]⟩)
  · intro hfix
    rw [hres]
    congr 1
    cases hms : FindAllStringSubmatch content with
    | nil => exact absurd hms hne
    | cons m ms =>
      rw [hms] at hall hwhole hfix
      have e1 : replaceEach env content (m :: ms) =
          replaceEach env (ReplaceAll content (placeholder foo) V) ms := by
        unfold replaceEach
        rw [List.foldl_cons, hwhole m (List.mem_cons_self _ _),
          hall m (List.mem_cons_self _ _), hg]
      rw [e1]
      rcases hfix with h1 | h1
      · have : ms = [] := by
          cases ms with
          | nil => rfl
          | cons x xs => simp at h1
        subst this
        rfl
      · apply replaceEach_of_fixed
        intro x hx
        rw [hwhole x (List.mem_cons_of_mem _ hx), hall x (List.mem_cons_of_mem _ hx), hg]
        exact ReplaceAll_of_not_infix _ _ _ h1

/-- C2, amended, on a text with three occurrences of the placeholder and a plain value,
and on a text with two occurrences and a value that holds the placeholder: there the
error is nil and the value is inserted by two passes in succession. -/
theorem C2_single_variable_witness :
    (EnvSubstituteForCurlyBraces (singleEnv "FOO".toList "v1".toList)
        "${FOO}/x/${FOO}-${FOO}".toList
      = (ReplaceAll "${FOO}/x/${FOO}-${FOO}".toList (placeholder "FOO".toList) "v1".toList,
          none) ∧
      ReplaceAll "${FOO}/x/${FOO}-${FOO}".toList (placeholder "FOO".toList) "v1".toList
        = "v1/x/v1-v1".toList) ∧
    ((EnvSubstituteForCurlyBraces (singleEnv "FOO".toList "a${FOO}".toList)
        "${FOO}${FOO}".toList).2 = none ∧
      (EnvSubstituteForCurlyBraces (singleEnv "FOO".toList "a${FOO}".toList)
        "${FOO}${FOO}".toList).1
        = Nat.iterate (fun t => ReplaceAll t (placeholder "FOO".toList) "a${FOO}".toList)
            (FindAllStringSubmatch "${FOO}${FOO}".toList).length "${FOO}${FOO}".toList ∧
      Nat.iterate (fun t => ReplaceAll t (placeholder "FOO".toList) "a${FOO}".toList)
          (FindAllStringSubmatch "${FOO}${FOO}".toList).length "${FOO}${FOO}".toList
        = "aa${FOO}aa${FOO}".toList) :=
  ⟨⟨(C2_single_variable (singleEnv "FOO".toList "v1".toList)
        "${FOO}/x/${FOO}-${FOO}".toList "FOO".toList "v1".toList
        (by decide) (by decide) (by decide) (by decide)).2.2 (Or.inr (by decide)),
     by decide⟩,
   ⟨(C2_single_variable (singleEnv "FOO".toList "a${FOO}".toList) "${FOO}${FOO}".toList
        "FOO".toList "a${FOO}".toList (by decide) (by decide) (by decide) (by decide)).1,
    (C2_single_variable (singleEnv "FOO".toList "a${FOO}".toList) "${FOO}${FOO}".toList
        "FOO".toList "a${FOO}".toList (by decide) (by decide) (by decide) (by decide)).2.1,
    by decide⟩⟩

/-- C6 fails as stated: the loop runs over every match, so a missing placeholder that
occurs twice contributes two error values although it is one distinct key. -/
theorem C6_counterexample :
    (EnvSubstituteForCurlyBraces emptyEnv "${A}-${A}".toList).2
      = some ⟨[⟨"${A}".toList⟩, ⟨"${A}".toList⟩]⟩ ∧
    ((FindAllStringSubmatch "${A}-${A}".toList).map (fun m => m.group)).dedup
      = ["A".toList] := by
  decide

/-- C6, amended: on failure the aggregate error holds exactly one error value for every
occurrence of a placeholder whose variable is unset or empty, in the order of the
occurrences; its key is the matched text. -/
theorem C6_one_error_per_missing_occurrence (env : Env) (content : Str) (me : MultiError)
    (h : (EnvSubstituteForCurlyBraces env content).2 = some me) :
    me.Errors =
      ((FindAllStringSubmatch content).filter
        (fun m => decide (unsetOrEmpty env m.group))).map (fun m => ⟨m.whole⟩) := by
  rw [errors_of_failure env content me h]
  unfold missingKeyErrors
  congr 1
  apply List.filter_congr
  intro m _
  simp [Getenv_eq_nil_iff]

/-- C6, amended, on a text where one missing placeholder occurs twice and a resolvable
one once. -/
theorem C6_one_error_per_missing_occurrence_witness :
    (EnvSubstituteForCurlyBraces (singleEnv "B".toList "b".toList)
        "${A}${B}${A}".toList).2 = some ⟨[⟨"${A}".toList⟩, ⟨"${A}".toList⟩]⟩ ∧
    [(⟨"${A}".toList⟩ : ErrRequiredEnvKeyMissing), ⟨"${A}".toList⟩] =
      ((FindAllStringSubmatch "${A}${B}${A}".toList).filter
        (fun m => decide (unsetOrEmpty (singleEnv "B".toList "b".toList) m.group))).map
        (fun m => ⟨m.whole⟩) :=
  ⟨by decide,
   C6_one_error_per_missing_occurrence (singleEnv "B".toList "b".toList)
     "${A}${B}${A}".toList ⟨[⟨"${A}".toList⟩, ⟨"${A}".toList⟩]⟩ (by decide)⟩

/-- C8: replacement is literal. In a text with exactly one match, the placeholder of
`foo`, and a non-empty value `V` of `foo`, whatever characters `V` holds, the result is
the text in front of the placeholder, `V`, and the text behind it, with the nil error. -/
theorem C8_literal_replacement (env : Env) (pre post foo V : Str) (hfoo : isName foo)
    (hone : (FindAllStringSubmatch (pre ++ placeholder foo ++ post)).length = 1)
    (hV : env foo = some V) (hVne : V ≠ []) :
    EnvSubstituteForCurlyBraces env (pre ++ placeholder foo ++ post)
      = (pre ++ V ++ post, none) := by
  have hocc := FindAllStringSubmatch_occurrence pre post foo hfoo
  have hg : Getenv env foo = V := Getenv_of_some hV
  rw [hocc] at hone
  have hpre : FindAllStringSubmatch pre = [] := by
    cases h : FindAllStringSubmatch pre with
    | nil => rfl
    | cons x xs => rw [h] at hone; simp at hone
  have hpost : FindAllStringSubmatch post = [] := by
    cases h : FindAllStringSubmatch post with
    | nil => rfl
    | cons x xs => rw [h] at hone; simp at hone; omega
  have hms : FindAllStringSubmatch (pre ++ placeholder foo ++ post)
      = [⟨placeholder foo, foo⟩] := by
    rw [hocc, hpre, hpost]
    rfl
  have hset : ∀ m ∈ FindAllStringSubmatch (pre ++ placeholder foo ++ post),
      Getenv env m.group ≠ [] := by
    intro m hm
    rw [hms] at hm
    simp at hm
    subst hm
    simpa [hg] using hVne
  rw [EnvSubstituteForCurlyBraces_of_all_set env _ hset, hms]
  simp only [replaceEach, List.foldl_cons, List.foldl_nil, hg]
  rw [ReplaceAll_placeholder_once pre post foo V hfoo hpre hpost]

/-- C8 with a value that holds dollar signs, braces, a backslash, regular-expression
metacharacters and the placeholder itself. -/
theorem C8_literal_replacement_witness :
    EnvSubstituteForCurlyBraces (singleEnv "FOO".toList metaValue)
        ("key: ".toList ++ placeholder "FOO".toList ++ " # $done".toList)
      = ("key: ".toList ++ metaValue ++ " # $done".toList, none) :=
  C8_literal_replacement (singleEnv "FOO".toList metaValue)
    "key: ".toList " # $done".toList "FOO".toList metaValue
    (by decide) (by decide) (by decide) (by decide)

/-- C9 fails as stated: the key of a missing-key error is `match[0]`, the whole
placeholder, not the name `match[1]` that was looked up. -/
theorem C9_counterexample :
    (EnvSubstituteForCurlyBraces emptyEnv "${FOO}".toList).2
      = some ⟨[⟨"${FOO}".toList⟩]⟩ ∧
    (FindAllStringSubmatch "${FOO}".toList).map (fun m => m.group) = ["FOO".toList] ∧
    (⟨"${FOO}".toList⟩ : ErrRequiredEnvKeyMissing).Key ≠ "FOO".toList := by
  decide

/-- C9, amended: every error value of the aggregate error comes from a match whose
variable is unset or empty, and its key is the matched text: a dollar sign, an opening
brace, the name that was looked up, a closing brace. -/
theorem C9_key_is_placeholder (env : Env) (content : Str) (me : MultiError)
    (e : ErrRequiredEnvKeyMissing)
    (h : (EnvSubstituteForCurlyBraces env content).2 = some me) (he : e ∈ me.Errors) :
    ∃ m ∈ FindAllStringSubmatch content,
      unsetOrEmpty env m.group ∧ e.Key = m.whole ∧ e.Key = placeholder m.group := by
  rw [errors_of_failure env content me h] at he
  unfold missingKeyErrors at he
  obtain ⟨m, hm, rfl⟩ := List.mem_map.mp he
  rw [List.mem_filter] at hm
  refine ⟨m, hm.1, ?_, rfl, (mem_FindAllStringSubmatch content m hm.1).1⟩
  exact (Getenv_eq_nil_iff env m.group).mp (by simpa using hm.2)

/-- C9, amended, on a text with one missing placeholder. -/
theorem C9_key_is_placeholder_witness :
    ∃ m ∈ FindAllStringSubmatch "x=${FOO}".toList,
      unsetOrEmpty emptyEnv m.group ∧
      (⟨"${FOO}".toList⟩ : ErrRequiredEnvKeyMissing).Key = m.whole ∧
      (⟨"${FOO}".toList⟩ : ErrRequiredEnvKeyMissing).Key = placeholder m.group :=
  C9_key_is_placeholder emptyEnv "x=${FOO}".toList ⟨[⟨"${FOO}".toList⟩]⟩
    ⟨"${FOO}".toList⟩ (by decide) (by decide)

/-- C7: when every dollar sign of the text starts a placeholder and every variable that
a placeholder names is set to a non-empty value without a dollar sign, the error is nil
and the result is the text with every placeholder replaced simultaneously by the value of
its variable. -/
theorem C7_simultaneous_substitution (env : Env) (content : Str)
    (hd : everyDollarStartsPlaceholder content = true)
    (hv : ∀ m ∈ FindAllStringSubmatch content,
      ∃ v, env m.group = some v ∧ v ≠ [] ∧ '$' ∉ v) :
    EnvSubstituteForCurlyBraces env content
      = (substituteSimultaneously env content, none) := by
  have hv2 : ∀ m ∈ FindAllStringSubmatch content,
      Getenv env m.group ≠ [] ∧ '$' ∉ Getenv env m.group := by
    intro m hm
    obtain ⟨v, h1, h2, h3⟩ := hv m hm
    rw [Getenv_of_some h1]
    exact ⟨h2, h3⟩
  obtain ⟨ps, S, hwf, hps, hS, hres⟩ :=
    EnvSubstituteForCurlyBraces_pieces env content hd hv2
  rw [hres, hps, substituteSimultaneously_render env ps hwf S (fun w hw => (hS w hw).1)]

/-- C7 on the example of the specification: host and port. -/
theorem C7_simultaneous_substitution_witness :
    EnvSubstituteForCurlyBraces hostPortEnv "url: ${HOST}:${PORT}".toList
      = (substituteSimultaneously hostPortEnv "url: ${HOST}:${PORT}".toList, none) ∧
    substituteSimultaneously hostPortEnv "url: ${HOST}:${PORT}".toList
      = "url: api.example.com:443".toList :=
  ⟨C7_simultaneous_substitution hostPortEnv "url: ${HOST}:${PORT}".toList
      (by decide) (by decide),
   by decide⟩

/-- C10: `GetEnv` returns a pointer to the first element of `Environments`, in
declaration order, whose name equals the key exactly: the element it points to exists and
has that name, and no earlier element has it; it returns nil exactly when no element has
that name. -/
theorem C10_GetEnv_first_match (config : ApiParams) (key : Str) :
    (∀ i, config.GetEnv key = some i ↔
      (∃ e, config.Environments[i]? = some e ∧ e.Name = key) ∧
        ∀ j, j < i → ∀ e, config.Environments[j]? = some e → e.Name ≠ key) ∧
    (config.GetEnv key = none ↔ ∀ e ∈ config.Environments, e.Name ≠ key) := by
  refine ⟨?_, getEnvLoop_eq_none key config.Environments 0⟩
  intro i
  unfold ApiParams.GetEnv
  rw [getEnvLoop_eq_some]
  constructor
  · rintro ⟨j, hj, h1, h2⟩
    have : i = j := by omega
    subst this
    exact ⟨h1, h2⟩
  · rintro ⟨h1, h2⟩
    exact ⟨i, by omega, h1, h2⟩

/-- C10 on the example of the specification, with a second record of the same name and a
key that differs in case only. -/
theorem C10_GetEnv_first_match_witness :
    (⟨[environmentNamed "dev".toList [], environmentNamed "prod".toList []]⟩ :
        ApiParams).GetEnv "prod".toList = some 1 ∧
    (⟨[environmentNamed "dev".toList [], environmentNamed "prod".toList []]⟩ :
        ApiParams).GetEnv "qa".toList = none ∧
    (⟨[environmentNamed "dev".toList [], environmentNamed "prod".toList []]⟩ :
        ApiParams).GetEnv "Prod".toList = none ∧
    (⟨[environmentNamed "dev".toList [], environmentNamed "prod".toList ["Gold".toList],
        environmentNamed "prod".toList ["Silver".toList]]⟩ :
        ApiParams).GetEnv "prod".toList = some 1 := by
  have h := C10_GetEnv_first_match
    ⟨[environmentNamed "dev".toList [], environmentNamed "prod".toList []]⟩ "prod".toList
  exact ⟨(h.1 1).mpr (by decide), by decide, by decide, by decide⟩

/-- C11 fails as stated: the code tests `fileExtensions == nil`, so a slice of length zero
that is not nil takes the branch of the loop, which then has nothing to run over: the file
is left as it is. A nil slice substitutes the same file; a file that cannot be written
keeps its content also with a nil slice. -/
theorem C11_counterexample :
    EnvSubstituteInFile hostPortEnv [("conf.txt".toList, plainFile "host: ${HOST}".toList)]
        "conf.txt".toList (some [])
      = ([("conf.txt".toList, plainFile "host: ${HOST}".toList)], none) ∧
    EnvSubstituteForCurlyBraces hostPortEnv "host: ${HOST}".toList
      = ("host: api.example.com".toList, none) ∧
    EnvSubstituteInFile hostPortEnv [("conf.txt".toList, plainFile "host: ${HOST}".toList)]
        "conf.txt".toList none
      = ([("conf.txt".toList, plainFile "host: api.example.com".toList)], none) ∧
    EnvSubstituteInFile hostPortEnv
        [("conf.txt".toList, readOnlyFile "host: ${HOST}".toList)] "conf.txt".toList none
      = ([("conf.txt".toList, readOnlyFile "host: ${HOST}".toList)],
          some (.pathError "open".toList "conf.txt".toList)) := by
  decide

/-- C11, amended: for a file that `ioutil.ReadFile` can read (it may be opened for
reading and is not a directory), whatever its name: with a slice of length zero that is
not nil the file system is unchanged and nil is returned, whatever the content holds; with
a nil slice the file is substituted unconditionally, so that, when the file can be written
and the substitution of the content succeeds, the content after the call is the result of
the substitution, the rest of the file system is as before, and nil is returned. -/
theorem C11_nil_extensions (env : Env) (fs : FileSystem) (file : Str) (n : FileNode)
    (hl : lookupFile fs file = some n) (hr : n.readable = true)
    (hk : n.kind ≠ .directory) :
    EnvSubstituteInFile env fs file (some []) = (fs, none) ∧
    (∀ s, n.writable = true → EnvSubstituteForCurlyBraces env n.content = (s, none) →
      EnvSubstituteInFile env fs file none = (setContent fs file s, none) ∧
      lookupFile (setContent fs file s) file = some (n.withContent s) ∧
      (∀ q, q ≠ file → lookupFile (setContent fs file s) q = lookupFile fs q)) := by
  refine ⟨?_, ?_⟩
  · rw [EnvSubstituteInFile_eq_outcome, hl]
    simp [fileOutcome, hr, hk, selected, applyOutcome]
  · intro s hw hs
    refine ⟨?_, ?_, ?_⟩
    · rw [EnvSubstituteInFile_eq_outcome, hl]
      simp [fileOutcome, hr, hk, hw, hs, selected, applyOutcome]
    · rw [lookupFile_setContent_self, hl]
      rfl
    · intro q hq
      exact lookupFile_setContent_other fs file s q hq

/-- C11, amended, on a file whose name has no extension at all, with a nil slice, and on
a file with an unresolvable placeholder, with a slice of length zero. -/
theorem C11_nil_extensions_witness :
    (EnvSubstituteInFile hostPortEnv [("Makefile".toList, plainFile "p=${PORT}".toList)]
        "Makefile".toList none
      = (setContent [("Makefile".toList, plainFile "p=${PORT}".toList)] "Makefile".toList
          "p=443".toList, none) ∧
      setContent [("Makefile".toList, plainFile "p=${PORT}".toList)] "Makefile".toList
          "p=443".toList
        = [("Makefile".toList, plainFile "p=443".toList)]) ∧
    EnvSubstituteInFile hostPortEnv [("c.txt".toList, plainFile "x: ${UNSET}".toList)]
        "c.txt".toList (some [])
      = ([("c.txt".toList, plainFile "x: ${UNSET}".toList)], none) :=
  ⟨⟨((C11_nil_extensions hostPortEnv [("Makefile".toList, plainFile "p=${PORT}".toList)]
        "Makefile".toList (plainFile "p=${PORT}".toList)
        (by decide) (by decide) (by decide)).2 "p=443".toList (by decide) (by decide)).1,
     by decide⟩,
   (C11_nil_extensions hostPortEnv [("c.txt".toList, plainFile "x: ${UNSET}".toList)]
      "c.txt".toList (plainFile "x: ${UNSET}".toList)
      (by decide) (by decide) (by decide)).1⟩

/-- C12: with an extension slice that is not nil, `EnvSubstituteInFile` changes the file
system only if the path ends with one of the given suffixes; for a file that
`ioutil.ReadFile` can read and whose path ends with none of them the file system is
unchanged and nil is returned, whatever the content holds. -/
theorem C12_only_matching_suffix (env : Env) (fs : FileSystem) (file : Str)
    (exts : List Str) (content : Str) (hread : ReadFile fs file = .ok content) :
    ((EnvSubstituteInFile env fs file (some exts)).1 ≠ fs →
      ∃ e ∈ exts, HasSuffix file e = true) ∧
    ((∀ e ∈ exts, HasSuffix file e = false) →
      EnvSubstituteInFile env fs file (some exts) = (fs, none)) := by
  have hnone : (∀ e ∈ exts, HasSuffix file e = false) →
      EnvSubstituteInFile env fs file (some exts) = (fs, none) := by
    intro h
    have hsel : selected file (some exts) = false := by
      rw [Bool.eq_false_iff]
      intro hsel
      obtain ⟨e, he, hs⟩ := (selected_some_iff file exts).mp hsel
      rw [h e he] at hs
      exact Bool.false_ne_true hs
    rw [EnvSubstituteInFile_eq, hread]
    simp [hsel]
  refine ⟨?_, hnone⟩
  intro hne
  by_contra hcon
  push_neg at hcon
  apply hne
  rw [hnone (fun e he => by simpa using hcon e he)]

/-- C12 on the example of the specification: the filter `.yaml` over `a.yaml` and
`b.txt`; `b.txt` holds a placeholder whose variable is not set. A directory is not a
file that can be read: the call on it returns the error of reading it. -/
theorem C12_only_matching_suffix_witness :
    EnvSubstituteInFile hostPortEnv
        [("d".toList, directoryNode), ("d/a.yaml".toList, plainFile "x: ${HOST}".toList),
          ("d/b.txt".toList, plainFile "y: ${HOST} ${UNSET}".toList)]
        "d/b.txt".toList (some [".yaml".toList])
      = ([("d".toList, directoryNode), ("d/a.yaml".toList, plainFile "x: ${HOST}".toList),
          ("d/b.txt".toList, plainFile "y: ${HOST} ${UNSET}".toList)], none) ∧
    EnvSubstituteInFolder hostPortEnv
        [("d".toList, directoryNode), ("d/a.yaml".toList, plainFile "x: ${HOST}".toList),
          ("d/b.txt".toList, plainFile "y: ${HOST} ${UNSET}".toList)]
        [⟨"d".toList, .directory, none⟩, ⟨"d/a.yaml".toList, .regular, none⟩,
          ⟨"d/b.txt".toList, .regular, none⟩]
        (some [".yaml".toList])
      = ([("d".toList, directoryNode),
          ("d/a.yaml".toList, plainFile "x: api.example.com".toList),
          ("d/b.txt".toList, plainFile "y: ${HOST} ${UNSET}".toList)], none) ∧
    EnvSubstituteInFile hostPortEnv [("d".toList, directoryNode)] "d".toList
        (some [".yaml".toList])
      = ([("d".toList, directoryNode)], some (.pathError "read".toList "d".toList)) :=
  ⟨(C12_only_matching_suffix hostPortEnv _ "d/b.txt".toList [".yaml".toList]
      "y: ${HOST} ${UNSET}".toList (by decide)).2 (by decide),
   by decide, by decide⟩

/-- C13: for a readable file that is selected for substitution and whose content holds
a placeholder with an unset or empty variable, `EnvSubstituteInFile` returns the
missing-key error of the substitution and the file system is exactly as before. -/
theorem C13_atomic_on_missing_variable (env : Env) (fs : FileSystem) (file : Str)
    (fileExtensions : Option (List Str)) (n : FileNode) (m : Submatch)
    (hl : lookupFile fs file = some n) (hr : n.readable = true)
    (hsel : selected file fileExtensions = true)
    (hm : m ∈ FindAllStringSubmatch n.content) (hu : unsetOrEmpty env m.group) :
    ∃ me, (EnvSubstituteForCurlyBraces env n.content).2 = some me ∧
      EnvSubstituteInFile env fs file fileExtensions = (fs, some (.missingKeys me)) := by
  obtain ⟨me, hme⟩ := EnvSubstituteForCurlyBraces_error_of_missing env n.content m hm hu
  have hk : n.kind ≠ .directory := by
    intro hdir
    rw [FileNode.content_of_directory n hdir] at hm
    simp [FindAllStringSubmatch, findAllFrom] at hm
  refine ⟨me, hme, ?_⟩
  rw [EnvSubstituteInFile_eq_outcome, hl]
  cases hres : EnvSubstituteForCurlyBraces env n.content with
  | mk s err =>
    rw [hres] at hme
    simp only at hme
    subst hme
    simp [fileOutcome, hr, hk, hsel, hres, applyOutcome]

/-- C13 on a file with one resolvable and one unresolvable placeholder: nothing of the
resolvable one is written. -/
theorem C13_atomic_on_missing_variable_witness :
    ∃ me, (EnvSubstituteForCurlyBraces hostPortEnv "${HOST} ${UNSET}".toList).2 = some me ∧
      EnvSubstituteInFile hostPortEnv
          [("a.yaml".toList, plainFile "${HOST} ${UNSET}".toList)] "a.yaml".toList
          (some [".yaml".toList])
        = ([("a.yaml".toList, plainFile "${HOST} ${UNSET}".toList)],
            some (.missingKeys me)) :=
  C13_atomic_on_missing_variable hostPortEnv
    [("a.yaml".toList, plainFile "${HOST} ${UNSET}".toList)] "a.yaml".toList
    (some [".yaml".toList]) (plainFile "${HOST} ${UNSET}".toList)
    ⟨"${UNSET}".toList, "UNSET".toList⟩ (by decide) (by decide) (by decide) (by decide)
    (by decide)

/-- C14: `EnvSubstituteInFolder` stops at the first error and does not roll back. The
walk visits `pre`, then `v`, then `post`, all with different paths; the substitution of
every regular file of `pre` succeeds and that of the regular file `v` fails with `err`.
Then the call returns `err`, every regular file of `pre` holds the content that its own
substitution gives it, `v` and every entry of `post` are as before, and so is everything
that is not in `pre`. -/
theorem C14_stops_at_first_error (env : Env) (fs : FileSystem)
    (fileExtensions : Option (List Str)) (pre : List WalkEntry) (v : WalkEntry)
    (post : List WalkEntry) (err : GoError) (n : FileNode)
    (hnodup : ((pre ++ v :: post).map (fun u => u.path)).Nodup)
    (hpre : ∀ u ∈ pre, u.err = none ∧ ∃ k, lookupFile fs u.path = some k ∧
      (k.kind = .regular → (EnvSubstituteInFile env fs u.path fileExtensions).2 = none))
    (hv : v.err = none) (hvl : lookupFile fs v.path = some n) (hvk : n.kind = .regular)
    (hfail : (EnvSubstituteInFile env fs v.path fileExtensions).2 = some err) :
    ∃ fs2, EnvSubstituteInFolder env fs (pre ++ v :: post) fileExtensions
        = (fs2, some err) ∧
      (∀ u ∈ pre, ∀ k, lookupFile fs u.path = some k → k.kind = .regular →
        lookupFile fs2 u.path
          = lookupFile (EnvSubstituteInFile env fs u.path fileExtensions).1 u.path) ∧
      (∀ u ∈ v :: post, lookupFile fs2 u.path = lookupFile fs u.path) ∧
      (∀ q, (∀ u ∈ pre, u.path ≠ q) → lookupFile fs2 q = lookupFile fs q) := by
  have hnodup1 : ((pre ++ [v]).map (fun u => u.path)).Nodup := by
    have hsub : ((pre ++ [v]).map (fun u => u.path)).Sublist
        ((pre ++ v :: post).map (fun u => u.path)) := by
      apply List.Sublist.map
      apply List.Sublist.append_left
      simp
    exact hnodup.sublist hsub
  obtain ⟨fs2, h1, h2, h3⟩ := EnvSubstituteInFolder_until_failure env fs fileExtensions
    v post err n hv hvl hvk hfail pre fs hnodup1 hpre (fun _ _ => rfl)
  refine ⟨fs2, h1, h2, ?_, h3⟩
  intro u hu
  apply h3
  intro w hw heq
  rw [List.map_append, List.nodup_append] at hnodup
  exact hnodup.2.2 (List.mem_map_of_mem (fun u => u.path) hw)
    (heq ▸ List.mem_map_of_mem (fun u => u.path) hu)

/-- C14 on a folder with three files of which the second fails: the first is
substituted, the second and the third are as before. -/
theorem C14_stops_at_first_error_witness :
    (∃ fs2, EnvSubstituteInFolder hostPortEnv exampleFolder exampleVisits none
        = (fs2, some (.missingKeys ⟨[⟨"${UNSET}".toList⟩]⟩)) ∧
      (∀ u ∈ exampleVisits.take 2, ∀ k, lookupFile exampleFolder u.path = some k →
        k.kind = .regular →
        lookupFile fs2 u.path
          = lookupFile (EnvSubstituteInFile hostPortEnv exampleFolder u.path none).1
              u.path) ∧
      (∀ u ∈ exampleVisits.drop 2, lookupFile fs2 u.path = lookupFile exampleFolder u.path) ∧
      (∀ q, (∀ u ∈ exampleVisits.take 2, u.path ≠ q) →
        lookupFile fs2 q = lookupFile exampleFolder q)) ∧
    EnvSubstituteInFolder hostPortEnv exampleFolder exampleVisits none
      = ([("d".toList, directoryNode),
          ("d/a.yaml".toList, plainFile "x: api.example.com".toList),
          ("d/b.yaml".toList, plainFile "y: ${UNSET}".toList),
          ("d/c.yaml".toList, plainFile "z: ${PORT}".toList)],
         some (.missingKeys ⟨[⟨"${UNSET}".toList⟩]⟩)) :=
  ⟨C14_stops_at_first_error hostPortEnv exampleFolder none (exampleVisits.take 2)
      ⟨"d/b.yaml".toList, .regular, none⟩ (exampleVisits.drop 3)
      (.missingKeys ⟨[⟨"${UNSET}".toList⟩]⟩) (plainFile "y: ${UNSET}".toList)
      (by decide) (by decide) (by decide) (by decide) (by decide) (by decide),
   by decide⟩

/-- C15: `LoadApiParams` parses strictly after substitution. When the substitution of the
text read from the stream fails, the result is the nil pointer with that error, whatever
the parser is; otherwise the result is that of the parser on the substituted text, and
depends on the parser through that text only. The error of a failed substitution is never
the error of a failed parse. -/
theorem C15_parse_after_substitution (envSubstitute : Str → Str × Option MultiError)
    (data : Str) :
    (∀ me, (envSubstitute data).2 = some me →
      ∀ yamlUnmarshal, LoadApiParams envSubstitute yamlUnmarshal (.ok data)
        = (none, some (.missingKeys me))) ∧
    ((envSubstitute data).2 = none →
      ∀ yamlUnmarshal, LoadApiParams envSubstitute yamlUnmarshal (.ok data)
        = parseDirectly yamlUnmarshal (envSubstitute data).1) ∧
    (∀ u1 u2 : Str → Except Str (Option ApiParams),
      u1 (envSubstitute data).1 = u2 (envSubstitute data).1 →
      LoadApiParams envSubstitute u1 (.ok data)
        = LoadApiParams envSubstitute u2 (.ok data)) ∧
    (∀ yamlUnmarshal me msg,
      LoadApiParams envSubstitute yamlUnmarshal (.ok data) = (none, some (.missingKeys me)) →
      LoadApiParams envSubstitute yamlUnmarshal (.ok data) ≠ (none, some (.yamlError msg))) := by
  cases hres : envSubstitute data with
  | mk str err =>
    cases err with
    | some me0 =>
      refine ⟨?_, ?_, ?_, ?_⟩
      · intro me hme u
        simp only [Option.some.injEq] at hme
        subst hme
        simp [LoadApiParams, hres]
      · intro h
        simp at h
      · intro u1 u2 _
        simp [LoadApiParams, hres]
      · intro u me msg h
        rw [h]
        simp
    | none =>
      refine ⟨?_, ?_, ?_, ?_⟩
      · intro me hme
        simp at hme
      · intro _ u
        simp only [LoadApiParams, hres, parseDirectly]
      · intro u1 u2 h
        simp only at h
        simp only [LoadApiParams, hres, h]
      · intro u me msg h
        rw [h]
        simp

/-- C15 on a text whose substitution fails, with two different parsers, and on a text
whose substitution succeeds. -/
theorem C15_parse_after_substitution_witness :
    LoadApiParams (EnvSubstituteForCurlyBraces emptyEnv) exampleUnmarshal
        (.ok "name: ${ENV}".toList)
      = (none, some (.missingKeys ⟨[⟨"${ENV}".toList⟩]⟩)) ∧
    LoadApiParams (EnvSubstituteForCurlyBraces emptyEnv) (fun _ => .ok (some ⟨[]⟩))
        (.ok "name: ${ENV}".toList)
      = (none, some (.missingKeys ⟨[⟨"${ENV}".toList⟩]⟩)) ∧
    LoadApiParams (EnvSubstituteForCurlyBraces (singleEnv "E".toList "[]".toList))
        exampleUnmarshal (.ok "environments: ${E}".toList)
      = (some ⟨[]⟩, none) ∧
    LoadApiParams (EnvSubstituteForCurlyBraces (singleEnv "E".toList "[".toList))
        exampleUnmarshal (.ok "environments: ${E}".toList)
      = (none, some (.yamlError "cannot parse: environments: [".toList)) :=
  ⟨(C15_parse_after_substitution (EnvSubstituteForCurlyBraces emptyEnv)
      "name: ${ENV}".toList).1 ⟨[⟨"${ENV}".toList⟩]⟩ (by decide) exampleUnmarshal,
   (C15_parse_after_substitution (EnvSubstituteForCurlyBraces emptyEnv)
      "name: ${ENV}".toList).1 ⟨[⟨"${ENV}".toList⟩]⟩ (by decide) (fun _ => .ok (some ⟨[]⟩)),
   by decide, by decide⟩

/-- C16: for a document text without any match of `recb`, in every environment,
substituting and then parsing, as `LoadApiParams` does, gives what parsing the text
directly gives: the same `ApiParams` or the same error of the parser. -/
theorem C16_round_trip_without_placeholder (env : Env)
    (yamlUnmarshal : Str → Except Str (Option ApiParams)) (text : Str)
    (h : FindAllStringSubmatch text = []) :
    LoadApiParams (EnvSubstitute env) yamlUnmarshal (.ok text)
      = parseDirectly yamlUnmarshal text := by
  have hs : EnvSubstitute env text = (text, none) := by
    unfold EnvSubstitute EnvSubstituteForCurlyBraces
    rw [h]
    rfl
  simp only [LoadApiParams, hs, parseDirectly]

/-- C16 on a document that parses and on one that does not, neither with a
placeholder. -/
theorem C16_round_trip_without_placeholder_witness :
    (LoadApiParams (EnvSubstitute emptyEnv) exampleUnmarshal (.ok "environments: []".toList)
        = parseDirectly exampleUnmarshal "environments: []".toList ∧
      parseDirectly exampleUnmarshal "environments: []".toList = (some ⟨[]⟩, none)) ∧
    (LoadApiParams (EnvSubstitute emptyEnv) exampleUnmarshal (.ok "environments: [".toList)
        = parseDirectly exampleUnmarshal "environments: [".toList ∧
      parseDirectly exampleUnmarshal "environments: [".toList
        = (none, some (.yamlError "cannot parse: environments: [".toList))) :=
  ⟨⟨C16_round_trip_without_placeholder emptyEnv exampleUnmarshal _ (by decide), by decide⟩,
   ⟨C16_round_trip_without_placeholder emptyEnv exampleUnmarshal _ (by decide), by decide⟩⟩

/-- C19: a file whose path ends with at least one element of the extension slice is
treated as with that single matching suffix alone: the file system after the call and the
returned error are the same, however many elements of the slice match. Every pass
substitutes the content read before the loop. -/
theorem C19_matching_suffixes_as_one (env : Env) (fs : FileSystem) (file : Str)
    (exts : List Str) (e : Str) (he : e ∈ exts) (hs : HasSuffix file e = true) :
    EnvSubstituteInFile env fs file (some exts)
      = EnvSubstituteInFile env fs file (some [e]) := by
  have h1 : selected file (some exts) = true :=
    (selected_some_iff file exts).mpr ⟨e, he, hs⟩
  have h2 : selected file (some [e]) = true :=
    (selected_some_iff file [e]).mpr ⟨e, by simp, hs⟩
  rw [EnvSubstituteInFile_eq, EnvSubstituteInFile_eq env fs file (some [e]), h1, h2]

/-- C19 on a file that three elements of the slice match, with a value that holds its
own placeholder: the value is inserted once. -/
theorem C19_matching_suffixes_as_one_witness :
    EnvSubstituteInFile (singleEnv "FOO".toList "a${FOO}".toList)
        [("v.yaml".toList, plainFile "${FOO}".toList)] "v.yaml".toList
        (some [".yaml".toList, ".txt".toList, "yaml".toList, ".yaml".toList])
      = EnvSubstituteInFile (singleEnv "FOO".toList "a${FOO}".toList)
        [("v.yaml".toList, plainFile "${FOO}".toList)] "v.yaml".toList
        (some [".yaml".toList]) ∧
    EnvSubstituteInFile (singleEnv "FOO".toList "a${FOO}".toList)
        [("v.yaml".toList, plainFile "${FOO}".toList)] "v.yaml".toList
        (some [".yaml".toList, ".txt".toList, "yaml".toList, ".yaml".toList])
      = ([("v.yaml".toList, plainFile "a${FOO}".toList)], none) :=
  ⟨C19_matching_suffixes_as_one (singleEnv "FOO".toList "a${FOO}".toList)
      [("v.yaml".toList, plainFile "${FOO}".toList)] "v.yaml".toList
      [".yaml".toList, ".txt".toList, "yaml".toList, ".yaml".toList] ".yaml".toList
      (by decide) (by decide),
   by decide⟩

/-- C17 fails as stated: the decoder of `json.Unmarshal` also accepts a key that differs
from `endpointConfig` in the case of its letters. An object without a member
`endpointConfig` can so yield a value, and an object with a string member `endpointConfig`
yields the empty string and an error when another such key holds a number. -/
theorem C17_counterexample :
    (exampleJsonParse "\x7b\"EndpointConfig\":\"x\"\x7d".toList
        = some (.object [("EndpointConfig".toList, .string "x".toList)]) ∧
      ExtractAPIEndpointConfig exampleJsonParse "\x7b\"EndpointConfig\":\"x\"\x7d".toList
        = some ("x".toList, none) ∧
      ExtractAPIEndpointConfig exampleJsonParse "\x7b\"EndpointConfig\":\"x\"\x7d".toList
        ≠ some ([], none)) ∧
    (exampleJsonParse "\x7b\"endpointConfig\":\"a\",\"ENDPOINTCONFIG\":7\x7d".toList
        = some (.object [("endpointConfig".toList, .string "a".toList),
            ("ENDPOINTCONFIG".toList, .number "7".toList)]) ∧
      ExtractAPIEndpointConfig exampleJsonParse
          "\x7b\"endpointConfig\":\"a\",\"ENDPOINTCONFIG\":7\x7d".toList
        = some ([], some (.jsonUnmarshalTypeError "number".toList)) ∧
      ExtractAPIEndpointConfig exampleJsonParse
          "\x7b\"endpointConfig\":\"a\",\"ENDPOINTCONFIG\":7\x7d".toList
        ≠ some ("a".toList, none)) := by
  refine ⟨⟨rfl, by decide, by decide⟩, ⟨rfl, by decide, by decide⟩⟩

/-- C17, amended: malformed input gives the empty string and the syntax error. For an
object in which every member whose key is `endpointConfig` up to the case of its letters
holds a string, the result is the string of the last such member, unchanged, with the nil
error; it is the empty string with the nil error when the object has no such member. -/
theorem C17_extract_endpoint_config (jsonParse : Str → Option Json) (b : Str) :
    (jsonParse b = none →
      ExtractAPIEndpointConfig jsonParse b = some ([], some .jsonSyntaxError)) ∧
    (∀ (pre post : List (Str × Json)) (k v : Str),
      jsonParse b = some (.object (pre ++ (k, .string v) :: post)) →
      matchesEndpointConfig k = true →
      (∀ m ∈ pre, matchesEndpointConfig m.1 = true → ∃ s, m.2 = .string s) →
      (∀ m ∈ post, matchesEndpointConfig m.1 = false) →
      ExtractAPIEndpointConfig jsonParse b = some (v, none)) ∧
    (∀ members : List (Str × Json), jsonParse b = some (.object members) →
      (∀ m ∈ members, matchesEndpointConfig m.1 = false) →
      ExtractAPIEndpointConfig jsonParse b = some ([], none)) := by
  refine ⟨?_, ?_, ?_⟩
  · intro h
    simp [ExtractAPIEndpointConfig, jsonUnmarshal, h]
  · intro pre post k v h hk hpre hpost
    have e1 := foldl_decodeMember_error_of_strings pre (⟨[]⟩, none) hpre
    have e2 : (pre ++ (k, Json.string v) :: post).foldl decodeMember (⟨[]⟩, none)
        = (⟨v⟩, none) := by
      rw [List.foldl_append, List.foldl_cons, foldl_decodeMember_of_no_match post _ hpost]
      simp only [decodeMember, hk, if_true]
      rw [e1]
    simp [ExtractAPIEndpointConfig, jsonUnmarshal, h, e2]
  · intro members h hno
    have e := foldl_decodeMember_of_no_match members (⟨[]⟩, none) hno
    simp [ExtractAPIEndpointConfig, jsonUnmarshal, h, e]

/-- C17, amended, on the example of the specification, on malformed input and on an
object without the member. -/
theorem C17_extract_endpoint_config_witness :
    ExtractAPIEndpointConfig exampleJsonParse
        "\x7b\"endpointConfig\":\"\x7b...\x7d\"\x7d".toList
      = some ("\x7b...\x7d".toList, none) ∧
    ExtractAPIEndpointConfig exampleJsonParse "\x7b\"endpointConfig\":".toList
      = some ([], some .jsonSyntaxError) ∧
    ExtractAPIEndpointConfig exampleJsonParse "\x7b\"name\":\"n\"\x7d".toList
      = some ([], none) :=
  ⟨(C17_extract_endpoint_config exampleJsonParse
      "\x7b\"endpointConfig\":\"\x7b...\x7d\"\x7d".toList).2.1 [] []
      "endpointConfig".toList "\x7b...\x7d".toList rfl (by decide) (by simp) (by simp),
   (C17_extract_endpoint_config exampleJsonParse "\x7b\"endpointConfig\":".toList).1
      rfl,
   (C17_extract_endpoint_config exampleJsonParse "\x7b\"name\":\"n\"\x7d".toList).2.2
      [("name".toList, .string "n".toList)] rfl (by decide)⟩

/-- C18: on a walk without error before the first match, `GetFileLocationFromPattern`
returns the empty string and the nil error when no entry that is not a directory has a
base name that matches the pattern; otherwise it returns the absolute path of the first
such entry together with `io.EOF`, whatever the walk would list after that entry. -/
theorem C18_first_match_and_EOF (pathMatch : Str → Str → Except GoError Bool)
    (pathBase : Str → Str) (pathAbs : Str → Except GoError Str) (pattern : Str) :
    (∀ visits : List WalkEntry,
      (∀ u ∈ visits, u.err = none ∧
        (u.info ≠ .directory → pathMatch pattern (pathBase u.path) = .ok false)) →
      GetFileLocationFromPattern pathMatch pathBase pathAbs visits pattern = ([], none)) ∧
    (∀ (pre post : List WalkEntry) (v : WalkEntry) (abs : Str),
      (∀ u ∈ pre, u.err = none ∧
        (u.info ≠ .directory → pathMatch pattern (pathBase u.path) = .ok false)) →
      v.err = none → v.info ≠ .directory →
      pathMatch pattern (pathBase v.path) = .ok true → pathAbs v.path = .ok abs →
      GetFileLocationFromPattern pathMatch pathBase pathAbs (pre ++ v :: post) pattern
        = (abs, some .EOF)) := by
  refine ⟨?_, ?_⟩
  · intro visits h
    unfold GetFileLocationFromPattern
    have := Walk_append_of_unchanged (patternWalkFn pathMatch pathBase pathAbs pattern)
      visits [] [] (fun u hu => patternWalkFn_of_no_match pathMatch pathBase pathAbs pattern
        u [] (h u hu).1 (h u hu).2)
    rw [List.append_nil] at this
    rw [this]
    rfl
  · intro pre post v abs h hv hd hm ha
    unfold GetFileLocationFromPattern
    rw [Walk_append_of_unchanged (patternWalkFn pathMatch pathBase pathAbs pattern)
      pre (v :: post) [] (fun u hu => patternWalkFn_of_no_match pathMatch pathBase pathAbs
        pattern u [] (h u hu).1 (h u hu).2)]
    apply Walk_cons_err
    simp [patternWalkFn, hv, hd, hm, ha]

/-- C18 on the example folder: the first file with the suffix is returned with `io.EOF`,
a pattern that only the directory matches and a pattern that nothing matches give the
empty string and nil. -/
theorem C18_first_match_and_EOF_witness :
    GetFileLocationFromPattern exampleMatch exampleBase exampleAbs exampleVisits
        "*.yaml".toList = ("/w/d/a.yaml".toList, some .EOF) ∧
    GetFileLocationFromPattern exampleMatch exampleBase exampleAbs exampleVisits
        "d".toList = ([], none) ∧
    GetFileLocationFromPattern exampleMatch exampleBase exampleAbs exampleVisits
        "*.json".toList = ([], none) :=
  ⟨(C18_first_match_and_EOF exampleMatch exampleBase exampleAbs "*.yaml".toList).2
      (exampleVisits.take 1) (exampleVisits.drop 2) ⟨"d/a.yaml".toList, .regular, none⟩
      "/w/d/a.yaml".toList (by decide) rfl (by decide) (by decide) (by decide),
   (C18_first_match_and_EOF exampleMatch exampleBase exampleAbs "d".toList).1
      exampleVisits (by decide),
   (C18_first_match_and_EOF exampleMatch exampleBase exampleAbs "*.json".toList).1
      exampleVisits (by decide)⟩


end ApimTooling
